import Mathlib

/-!
# Verification of the webexteamsdk JSON projection model

This file embeds, in Lean, the JSON projection mechanism of the
`webexteamsdk` models package:

* `src/webexteamsdk/models/sparkdata.py` — class `SparkData`
  (`__init__`, `__getattr__`, `__repr__`, `json_data`, `to_dict`,
  `to_json`; the pretty-printed `__str__` has no verified property
  attached and is not embedded);
* `src/webexteamsdk/models/webhook.py` — `WebhookBasicPropertiesMixin`;
* `src/webexteamsdk/models/team.py` — `TeamBasicPropertiesMixin`;
* `src/webexteamsdk/models/license.py` — `LicenseBasicPropertiesMixin`.

JSON values are modelled by the inductive `JsonValue`; a Python
(ordered) dict is an association list with unique keys, so lookups take
the first (= only) match.  JSON numbers are modelled as integers: no
behaviour verified here inspects fractional numbers.  A Python object's
class is modelled by a `className` string, because `SparkData` observes
`self.__class__.__name__` in `__getattr__`'s error message and in
`__str__`/`__repr__`, and because mixin-composed subclasses (e.g. a
`Webhook` composing `SparkData` with `WebhookBasicPropertiesMixin`)
share `SparkData`'s code while reporting their own class name.
-/

/-- A JSON value: null, boolean, number (integer-modelled), string,
array, or object (ordered field list).  Python's `json.loads` maps
JSON `null` to Python `None`; we identify the two as `JsonValue.null`. -/
inductive JsonValue : Type where
  | null : JsonValue
  | bool (b : Bool) : JsonValue
  | num (n : Int) : JsonValue
  | str (s : String) : JsonValue
  | arr (elems : List JsonValue) : JsonValue
  | obj (fields : List (String × JsonValue)) : JsonValue

mutual

/-- Boolean structural equality of JSON values. -/
def JsonValue.beq : JsonValue → JsonValue → Bool
  | JsonValue.null, JsonValue.null => true
  | JsonValue.bool a, JsonValue.bool b => a == b
  | JsonValue.num a, JsonValue.num b => a == b
  | JsonValue.str a, JsonValue.str b => a == b
  | JsonValue.arr xs, JsonValue.arr ys => JsonValue.beqList xs ys
  | JsonValue.obj xs, JsonValue.obj ys => JsonValue.beqFields xs ys
  | _, _ => false

/-- Boolean equality of JSON arrays, elementwise. -/
def JsonValue.beqList : List JsonValue → List JsonValue → Bool
  | [], [] => true
  | x :: xs, y :: ys => JsonValue.beq x y && JsonValue.beqList xs ys
  | _, _ => false

/-- Boolean equality of JSON object field lists, pairwise. -/
def JsonValue.beqFields :
    List (String × JsonValue) → List (String × JsonValue) → Bool
  | [], [] => true
  | (k1, v1) :: xs, (k2, v2) :: ys =>
      k1 == k2 && JsonValue.beq v1 v2 && JsonValue.beqFields xs ys
  | _, _ => false

end

/-- Structural induction over `JsonValue`, with memberwise hypotheses
for the nested lists. -/
theorem JsonValue.ind (P : JsonValue → Prop)
    (h0 : P JsonValue.null)
    (h1 : ∀ b, P (JsonValue.bool b))
    (h2 : ∀ n, P (JsonValue.num n))
    (h3 : ∀ s, P (JsonValue.str s))
    (h4 : ∀ xs, (∀ x, x ∈ xs → P x) → P (JsonValue.arr xs))
    (h5 : ∀ fs, (∀ kv, kv ∈ fs → P kv.2) → P (JsonValue.obj fs)) :
    ∀ v, P v
  | JsonValue.null => h0
  | JsonValue.bool b => h1 b
  | JsonValue.num n => h2 n
  | JsonValue.str s => h3 s
  | JsonValue.arr xs =>
      h4 xs (fun x hx => JsonValue.ind P h0 h1 h2 h3 h4 h5 x)
  | JsonValue.obj fs =>
      h5 fs (fun kv hkv => JsonValue.ind P h0 h1 h2 h3 h4 h5 kv.2)
termination_by v => sizeOf v
decreasing_by
  · have := List.sizeOf_lt_of_mem hx
    simp only [JsonValue.arr.sizeOf_spec]
    omega
  · have := List.sizeOf_lt_of_mem hkv
    obtain ⟨k, v⟩ := kv
    simp only [JsonValue.obj.sizeOf_spec, Prod.mk.sizeOf_spec] at *
    omega

/-- `beqList` decides list equality, given that `beq` decides equality
of each member. -/
theorem JsonValue.beqList_iff (xs : List JsonValue)
    (hx : ∀ x, x ∈ xs → ∀ b, (JsonValue.beq x b = true) ↔ x = b) :
    ∀ ys, (JsonValue.beqList xs ys = true) ↔ xs = ys := by
  induction xs with
  | nil => intro ys; cases ys <;> simp [JsonValue.beqList]
  | cons x xs ih =>
    intro ys
    cases ys with
    | nil => simp [JsonValue.beqList]
    | cons y ys =>
      simp [JsonValue.beqList, hx x (by simp) y,
        ih (fun x h b => hx x (by simp [h]) b) ys]

/-- `beqFields` decides field-list equality, given that `beq` decides
equality of each member's value. -/
theorem JsonValue.beqFields_iff (xs : List (String × JsonValue))
    (hx : ∀ kv, kv ∈ xs → ∀ b, (JsonValue.beq kv.2 b = true) ↔ kv.2 = b) :
    ∀ ys, (JsonValue.beqFields xs ys = true) ↔ xs = ys := by
  induction xs with
  | nil => intro ys; cases ys <;> simp [JsonValue.beqFields]
  | cons x xs ih =>
    intro ys
    cases ys with
    | nil => obtain ⟨k, v⟩ := x; simp [JsonValue.beqFields]
    | cons y ys =>
      obtain ⟨k1, v1⟩ := x
      obtain ⟨k2, v2⟩ := y
      simp [JsonValue.beqFields, hx (k1, v1) (by simp) v2,
        ih (fun kv h b => hx kv (by simp [h]) b) ys, Bool.and_assoc,
        and_assoc]

/-- `beq` decides equality of JSON values. -/
theorem JsonValue.beq_iff :
    ∀ a b : JsonValue, (JsonValue.beq a b = true) ↔ a = b := by
  intro a
  induction a using JsonValue.ind with
  | h0 => intro b; cases b <;> simp [JsonValue.beq]
  | h1 x => intro b; cases b <;> simp [JsonValue.beq]
  | h2 x => intro b; cases b <;> simp [JsonValue.beq]
  | h3 x => intro b; cases b <;> simp [JsonValue.beq]
  | h4 xs ih =>
    intro b
    cases b <;> simp [JsonValue.beq]
    exact JsonValue.beqList_iff xs ih _
  | h5 fs ih =>
    intro b
    cases b <;> simp [JsonValue.beq]
    exact JsonValue.beqFields_iff fs ih _

instance : DecidableEq JsonValue :=
  fun a b => decidable_of_iff _ (JsonValue.beq_iff a b)

/-- Association-list lookup, modelling Python dict lookup
(`d[k]`, and the `some`/`none` split of `k in d.keys()`).
Keys of a Python dict are unique, so the first match is the match. -/
def alGet (m : List (String × JsonValue)) (k : String) : Option JsonValue :=
  match m with
  | [] => none
  | (k1, v) :: rest => if k1 = k then some v else alGet rest k

/-- The state of a `SparkData` instance: its class name
(`self.__class__.__name__`) and the wrapped mapping
(`self._json_data`).  A plain `SparkData` has `className = "SparkData"`;
a mixin-composed resource object (per the spec's Resource Mixin
composition) has the composed class's name, e.g. `"Webhook"`. -/
structure SparkData : Type where
  className : String
  _json_data : List (String × JsonValue)
deriving DecidableEq

/-- A Python value as produced by attribute access: either a `SparkData`
wrapper object or a raw JSON-typed value.  A wrapper and a raw dict are
never equal (Python compares them by identity; no `__eq__` is defined). -/
inductive PyValue : Type where
  | spark (o : SparkData) : PyValue
  | json (v : JsonValue) : PyValue
deriving DecidableEq

/-- The two error kinds of the projection mechanism
(spec §7): `AttributeNotFound` is Python's `AttributeError` raised by
`SparkData.__getattr__`, carrying the object's type name and the
requested attribute name; `InvalidDataType` is the construction error. -/
inductive SparkError : Type where
  | AttributeNotFound (typeName : String) (attrName : String) : SparkError
  | InvalidDataType : SparkError
deriving DecidableEq

instance : DecidableEq (Except SparkError PyValue) := fun a b =>
  match a, b with
  | Except.ok x, Except.ok y => decidable_of_iff (x = y) (by simp)
  | Except.error x, Except.error y => decidable_of_iff (x = y) (by simp)
  | Except.ok _, Except.error _ => isFalse (by simp)
  | Except.error _, Except.ok _ => isFalse (by simp)

/-- The diagnostic message format used by `SparkData.__getattr__`:
`"'{}' object has no attribute '{}'".format(self.__class__.__name__, item)`. -/
def attributeErrorMessage (typeName attrName : String) : String :=
  "\x27" ++ typeName ++ "\x27 object has no attribute \x27" ++ attrName ++ "\x27"

/-- `SparkData.__getattr__` (sparkdata.py lines 62..92): if `item` is a
key of `self._json_data`, return the value — re-wrapped as
`SparkData(item_data)` (note: the base class, constructed afresh on
every access; there is no cache field in the state) when the value is a
dict, and unchanged otherwise; if `item` is not a key, raise
`AttributeError` carrying the class name and the item. -/
def SparkData.getattr (o : SparkData) (item : String) : Except SparkError PyValue :=
  match alGet o._json_data item with
  | some (JsonValue.obj fields) => Except.ok (PyValue.spark (SparkData.mk "SparkData" fields))
  | some v => Except.ok (PyValue.json v)
  | none => Except.error (SparkError.AttributeNotFound o.className item)

/-- Python `d.get(k)`: the value when present, `None` when absent
(JSON `null` and Python `None` coincide as `JsonValue.null`). -/
def dictGet (m : List (String × JsonValue)) (k : String) : JsonValue :=
  match alGet m k with
  | some v => v
  | none => JsonValue.null

/-- The body shared by every declared mixin property:
`return self._json_data.get('<key>')`.  A property defined on the class
shadows `__getattr__` (which Python only calls when normal lookup
fails), so this path is total: it never raises, and it never wraps —
the raw stored value is returned even when it is a dict. -/
def SparkData.propGet (o : SparkData) (k : String) : PyValue :=
  PyValue.json (dictGet o._json_data k)

/-- `SparkData.json_data` property: `self._json_data.copy()`.
Value-level content of the returned copy (the copy is shallow; aliasing
behaviour is treated by the store model further below). -/
def SparkData.json_data (o : SparkData) : List (String × JsonValue) :=
  o._json_data

/-- `SparkData.to_dict`: `dict(self._json_data)`.  Value-level content
of the returned copy (shallow, like `json_data`). -/
def SparkData.to_dict (o : SparkData) : List (String × JsonValue) :=
  o._json_data

/-- `WebhookBasicPropertiesMixin.id` (webhook.py). -/
def WebhookBasicPropertiesMixin.id (o : SparkData) : PyValue := o.propGet "id"

/-- `WebhookBasicPropertiesMixin.name` (webhook.py). -/
def WebhookBasicPropertiesMixin.name (o : SparkData) : PyValue := o.propGet "name"

/-- `WebhookBasicPropertiesMixin.targetUrl` (webhook.py). -/
def WebhookBasicPropertiesMixin.targetUrl (o : SparkData) : PyValue := o.propGet "targetUrl"

/-- `WebhookBasicPropertiesMixin.resource` (webhook.py). -/
def WebhookBasicPropertiesMixin.resource (o : SparkData) : PyValue := o.propGet "resource"

/-- `WebhookBasicPropertiesMixin.event` (webhook.py). -/
def WebhookBasicPropertiesMixin.event (o : SparkData) : PyValue := o.propGet "event"

/-- `WebhookBasicPropertiesMixin.filter` (webhook.py). -/
def WebhookBasicPropertiesMixin.filter (o : SparkData) : PyValue := o.propGet "filter"

/-- `WebhookBasicPropertiesMixin.secret` (webhook.py lines 69..72). -/
def WebhookBasicPropertiesMixin.secret (o : SparkData) : PyValue := o.propGet "secret"

/-- `WebhookBasicPropertiesMixin.orgId` (webhook.py). -/
def WebhookBasicPropertiesMixin.orgId (o : SparkData) : PyValue := o.propGet "orgId"

/-- `WebhookBasicPropertiesMixin.createdBy` (webhook.py). -/
def WebhookBasicPropertiesMixin.createdBy (o : SparkData) : PyValue := o.propGet "createdBy"

/-- `WebhookBasicPropertiesMixin.appId` (webhook.py). -/
def WebhookBasicPropertiesMixin.appId (o : SparkData) : PyValue := o.propGet "appId"

/-- `WebhookBasicPropertiesMixin.ownedBy` (webhook.py). -/
def WebhookBasicPropertiesMixin.ownedBy (o : SparkData) : PyValue := o.propGet "ownedBy"

/-- `WebhookBasicPropertiesMixin.status` (webhook.py). -/
def WebhookBasicPropertiesMixin.status (o : SparkData) : PyValue := o.propGet "status"

/-- `WebhookBasicPropertiesMixin.created` (webhook.py). -/
def WebhookBasicPropertiesMixin.created (o : SparkData) : PyValue := o.propGet "created"

/-- `TeamBasicPropertiesMixin.id` (team.py lines 39..42). -/
def TeamBasicPropertiesMixin.id (o : SparkData) : PyValue := o.propGet "id"

/-- `TeamBasicPropertiesMixin.name` (team.py). -/
def TeamBasicPropertiesMixin.name (o : SparkData) : PyValue := o.propGet "name"

/-- `TeamBasicPropertiesMixin.created` (team.py). -/
def TeamBasicPropertiesMixin.created (o : SparkData) : PyValue := o.propGet "created"

/-- `TeamBasicPropertiesMixin.creatorId` (team.py). -/
def TeamBasicPropertiesMixin.creatorId (o : SparkData) : PyValue := o.propGet "creatorId"

/-- `LicenseBasicPropertiesMixin.id` (license.py). -/
def LicenseBasicPropertiesMixin.id (o : SparkData) : PyValue := o.propGet "id"

/-- `LicenseBasicPropertiesMixin.name` (license.py). -/
def LicenseBasicPropertiesMixin.name (o : SparkData) : PyValue := o.propGet "name"

/-- `LicenseBasicPropertiesMixin.totalUnits` (license.py lines 49..52). -/
def LicenseBasicPropertiesMixin.totalUnits (o : SparkData) : PyValue := o.propGet "totalUnits"

/-- `LicenseBasicPropertiesMixin.consumedUnits` (license.py). -/
def LicenseBasicPropertiesMixin.consumedUnits (o : SparkData) : PyValue := o.propGet "consumedUnits"

/-- The backing JSON keys of the properties declared by
`WebhookBasicPropertiesMixin`. -/
def webhookPropertyKeys : List String :=
  ["id", "name", "targetUrl", "resource", "event", "filter", "secret",
   "orgId", "createdBy", "appId", "ownedBy", "status", "created"]

/-- The backing JSON keys of the properties declared by
`TeamBasicPropertiesMixin`. -/
def teamPropertyKeys : List String :=
  ["id", "name", "created", "creatorId"]

/-- The backing JSON keys of the properties declared by
`LicenseBasicPropertiesMixin`. -/
def licensePropertyKeys : List String :=
  ["id", "name", "totalUnits", "consumedUnits"]

/-- Every (mixin, declared property) backing key appearing in the
three mixin files. -/
def declaredPropertyKeys : List String :=
  webhookPropertyKeys ++ teamPropertyKeys ++ licensePropertyKeys

/-- Discriminator for JSON objects (Python's `isinstance(x, dict)`). -/
def JsonValue.isObj : JsonValue → Bool
  | JsonValue.obj _ => true
  | _ => false

/-- The whitespace characters `json.loads` skips between tokens
(space, tab, line feed, carriage return). -/
def isJsonWs (c : Char) : Bool :=
  c = ' ' || c = '\x09' || c = '\x0a' || c = '\x0d'

/-- Skip inter-token whitespace. -/
def skipWsL (cs : List Char) : List Char :=
  cs.dropWhile isJsonWs

/-- The decimal digit character for `n < 10`. -/
def digitChar (n : Nat) : Char :=
  Char.ofNat (48 + n)

/-- The lowercase hexadecimal digit character for `n < 16`
(`json.dumps` emits lowercase hex in `\uXXXX` escapes). -/
def hexDigitChar (n : Nat) : Char :=
  if n < 10 then Char.ofNat (48 + n) else Char.ofNat (87 + n)

/-- Four lowercase hex digits of `n < 65536`, most significant first. -/
def hex4 (n : Nat) : List Char :=
  [hexDigitChar (n / 4096 % 16), hexDigitChar (n / 256 % 16),
   hexDigitChar (n / 16 % 16), hexDigitChar (n % 16)]

/-- How `json.dumps` renders one character inside a string literal.
With `ensureAscii = false` (the `ensure_ascii=False` call in
`__repr__`) only the quote, the backslash and control characters are
escaped — everything else, non-ASCII included, is kept literally.
With `ensureAscii = true` (the default, used by `to_json`) every
character outside `0x20..0x7e` is `\u`-escaped, astral characters as a
UTF-16 surrogate pair. -/
def jsonEscapeChar (ensureAscii : Bool) (c : Char) : List Char :=
  if c = '"' then ['\\', '"']
  else if c = '\\' then ['\\', '\\']
  else if c = '\x08' then ['\\', 'b']
  else if c = '\x09' then ['\\', 't']
  else if c = '\x0a' then ['\\', 'n']
  else if c = '\x0c' then ['\\', 'f']
  else if c = '\x0d' then ['\\', 'r']
  else if c.toNat < 32 then '\\' :: 'u' :: hex4 c.toNat
  else if ensureAscii && 127 ≤ c.toNat then
    if c.toNat < 65536 then '\\' :: 'u' :: hex4 c.toNat
    else
      ('\\' :: 'u' :: hex4 (55296 + (c.toNat - 65536) / 1024)) ++
        ('\\' :: 'u' :: hex4 (56320 + (c.toNat - 65536) % 1024))
  else [c]

/-- Escape every character of a string body. -/
def escStringChars (ensureAscii : Bool) : List Char → List Char
  | [] => []
  | c :: cs => jsonEscapeChar ensureAscii c ++ escStringChars ensureAscii cs

/-- A JSON string literal: quote, escaped body, quote. -/
def serString (ensureAscii : Bool) (s : String) : List Char :=
  '"' :: (escStringChars ensureAscii s.data ++ ['"'])

/-- Decimal digits of `n`, most significant first, with fuel (one
digit is produced per unit; `n` itself always bounds the count). -/
def natToDigitsAux : Nat → Nat → List Char
  | 0, _ => []
  | Nat.succ fuel, n =>
    if n < 10 then [digitChar n]
    else natToDigitsAux fuel (n / 10) ++ [digitChar (n % 10)]

/-- Decimal digits of `n`, most significant first. -/
def natToDigits (n : Nat) : List Char :=
  natToDigitsAux (n + 1) n

/-- Decimal rendering of an integer (how `json.dumps` prints the
integer-modelled JSON numbers). -/
def intToChars (n : Int) : List Char :=
  if n < 0 then '-' :: natToDigits (-n).toNat else natToDigits n.toNat

mutual

/-- `json.dumps` with its default separators (`", "` between items,
`": "` after keys) and no indentation. -/
def serValue (ensureAscii : Bool) : JsonValue → List Char
  | JsonValue.null => ['n', 'u', 'l', 'l']
  | JsonValue.bool true => ['t', 'r', 'u', 'e']
  | JsonValue.bool false => ['f', 'a', 'l', 's', 'e']
  | JsonValue.num n => intToChars n
  | JsonValue.str s => serString ensureAscii s
  | JsonValue.arr xs => '[' :: serElems ensureAscii xs
  | JsonValue.obj fs => '\x7b' :: serFields ensureAscii fs

/-- Array items after the opening bracket, up to and including the
closing bracket. -/
def serElems (ensureAscii : Bool) : List JsonValue → List Char
  | [] => [']']
  | [x] => serValue ensureAscii x ++ [']']
  | x :: y :: xs =>
      serValue ensureAscii x ++ [',', ' '] ++ serElems ensureAscii (y :: xs)

/-- Object members after the opening brace, up to and including the
closing brace. -/
def serFields (ensureAscii : Bool) :
    List (String × JsonValue) → List Char
  | [] => ['\x7d']
  | [(k, v)] =>
      serString ensureAscii k ++ [':', ' '] ++ serValue ensureAscii v ++ ['\x7d']
  | (k, v) :: p :: fs =>
      serString ensureAscii k ++ [':', ' '] ++ serValue ensureAscii v ++
        [',', ' '] ++ serFields ensureAscii (p :: fs)

end

/-- `SparkData.to_json` (sparkdata.py lines 115..122) with no keyword
arguments: `json.dumps(self._json_data)` — default separators and the
default `ensure_ascii=True`. -/
def SparkData.to_json (o : SparkData) : String :=
  String.mk (serValue true (JsonValue.obj o._json_data))

/-- Value of one hexadecimal digit (both cases accepted, as by
`json.loads`). -/
def hexVal (c : Char) : Option Nat :=
  if 48 ≤ c.toNat ∧ c.toNat ≤ 57 then some (c.toNat - 48)
  else if 97 ≤ c.toNat ∧ c.toNat ≤ 102 then some (c.toNat - 87)
  else if 65 ≤ c.toNat ∧ c.toNat ≤ 70 then some (c.toNat - 55)
  else none

/-- Read exactly four hex digits. -/
def parse4Hex : List Char → Option (Nat × List Char)
  | a :: b :: c :: d :: rest =>
    (match hexVal a, hexVal b, hexVal c, hexVal d with
     | some x, some y, some z, some w =>
         some (4096 * x + 256 * y + 16 * z + w, rest)
     | _, _, _, _ => none)
  | _ => none

/-- Read one character of a JSON string body: an escape sequence
(`\"`, `\\`, `\/`, `\b`, `\f`, `\n`, `\r`, `\t`, `\uXXXX`, a UTF-16
surrogate pair read as one astral character) or a literal character.
Raw control characters are rejected (`json.loads` strict mode).  A
lone surrogate escape, which CPython tolerates, has no Lean `Char`
representation and is rejected; no verified behaviour depends on it. -/
def parseStringChar (cs : List Char) : Option (Char × List Char) :=
  match cs with
  | [] => none
  | c :: rest =>
    if c = '"' then none
    else if c = '\\' then
      match rest with
      | [] => none
      | e :: rest2 =>
        if e = '"' then some ('"', rest2)
        else if e = '\\' then some ('\\', rest2)
        else if e = '/' then some ('/', rest2)
        else if e = 'b' then some ('\x08', rest2)
        else if e = 'f' then some ('\x0c', rest2)
        else if e = 'n' then some ('\x0a', rest2)
        else if e = 'r' then some ('\x0d', rest2)
        else if e = 't' then some ('\x09', rest2)
        else if e = 'u' then
          match parse4Hex rest2 with
          | none => none
          | some (n, rest3) =>
            if 55296 ≤ n ∧ n < 56320 then
              match rest3 with
              | c1 :: c2 :: rest4 =>
                if c1 = '\\' ∧ c2 = 'u' then
                  match parse4Hex rest4 with
                  | none => none
                  | some (m, rest5) =>
                    if 56320 ≤ m ∧ m < 57344 then
                      some (Char.ofNat
                        (65536 + (n - 55296) * 1024 + (m - 56320)), rest5)
                    else none
                else none
              | _ => none
            else if 56320 ≤ n ∧ n < 57344 then none
            else some (Char.ofNat n, rest3)
        else none
    else if c.toNat < 32 then none
    else some (c, rest)

/-- Read a JSON string body (the opening quote already consumed) up to
and including the closing quote.  One unit of fuel is spent per
produced character; each step consumes at least one input character,
so the wrapper `parseStringTail` below always supplies enough. -/
def parseStringBodyF : Nat → List Char → Option (List Char × List Char)
  | 0, _ => none
  | Nat.succ fuel, cs =>
    match cs with
    | [] => none
    | c :: rest =>
      if c = '"' then some ([], rest)
      else
        match parseStringChar cs with
        | none => none
        | some (ch, r) =>
          match parseStringBodyF fuel r with
          | none => none
          | some (s, r2) => some (ch :: s, r2)

/-- Read a JSON string body with self-sufficient fuel. -/
def parseStringTail (cs : List Char) : Option (List Char × List Char) :=
  parseStringBodyF (cs.length + 1) cs

/-- Decimal digit test. -/
def isDigitChar (c : Char) : Bool :=
  48 ≤ c.toNat && c.toNat ≤ 57

/-- Accumulate decimal digits into a number. -/
def digitsToNat (acc : Nat) : List Char → Nat
  | [] => acc
  | c :: cs => digitsToNat (acc * 10 + (c.toNat - 48)) cs

/-- Read a nonempty run of decimal digits.  JSON fractions and
exponents are not modelled (numbers are integers here), and a
leading-zero run is tolerated — the serializer never emits one, and no
verified behaviour depends on either. -/
def parseNat (cs : List Char) : Option (Nat × List Char) :=
  match cs.takeWhile isDigitChar with
  | [] => none
  | ds => some (digitsToNat 0 ds, cs.dropWhile isDigitChar)

/-- Insert a parsed object member with Python dict semantics: a
repeated key keeps its first position and takes the last value. -/
def insertPair (m : List (String × JsonValue)) (k : String)
    (v : JsonValue) : List (String × JsonValue) :=
  match m with
  | [] => [(k, v)]
  | (k1, v1) :: rest =>
    if k1 = k then (k1, v) :: rest else (k1, v1) :: insertPair rest k v

mutual

/-- Read one JSON value (`json.loads` grammar, with the restrictions
noted at `parseStringChar` and `parseNat`).  Fuel decreases on every
nesting step and on every array element or object member; the
top-level wrapper `parseJson` supplies enough for any input it is
given. -/
def parseValue : Nat → List Char → Option (JsonValue × List Char)
  | 0, _ => none
  | Nat.succ fuel, cs =>
    match skipWsL cs with
    | [] => none
    | c :: rest =>
      if c = 'n' then
        match rest with
        | 'u' :: 'l' :: 'l' :: r => some (JsonValue.null, r)
        | _ => none
      else if c = 't' then
        match rest with
        | 'r' :: 'u' :: 'e' :: r => some (JsonValue.bool true, r)
        | _ => none
      else if c = 'f' then
        match rest with
        | 'a' :: 'l' :: 's' :: 'e' :: r => some (JsonValue.bool false, r)
        | _ => none
      else if c = '"' then
        match parseStringTail rest with
        | none => none
        | some (s, r) => some (JsonValue.str (String.mk s), r)
      else if c = '[' then
        match skipWsL rest with
        | ']' :: r => some (JsonValue.arr [], r)
        | cs2 => parseElems fuel [] cs2
      else if c = '\x7b' then
        match skipWsL rest with
        | '\x7d' :: r => some (JsonValue.obj [], r)
        | cs2 => parseFields fuel [] cs2
      else if c = '-' then
        match parseNat rest with
        | none => none
        | some (n, r) => some (JsonValue.num (-(n : Int)), r)
      else if isDigitChar c then
        match parseNat (c :: rest) with
        | none => none
        | some (n, r) => some (JsonValue.num ((n : Int)), r)
      else none

/-- Read the elements of a nonempty array, from the first element to
the closing bracket. -/
def parseElems : Nat → List JsonValue → List Char →
    Option (JsonValue × List Char)
  | 0, _, _ => none
  | Nat.succ fuel, acc, cs =>
    match parseValue fuel cs with
    | none => none
    | some (v, r) =>
      match skipWsL r with
      | ',' :: r2 => parseElems fuel (acc ++ [v]) r2
      | ']' :: r2 => some (JsonValue.arr (acc ++ [v]), r2)
      | _ => none

/-- Read the members of a nonempty object, from the first key to the
closing brace. -/
def parseFields : Nat → List (String × JsonValue) → List Char →
    Option (JsonValue × List Char)
  | 0, _, _ => none
  | Nat.succ fuel, acc, cs =>
    match cs with
    | '"' :: rest =>
      (match parseStringTail rest with
       | none => none
       | some (kcs, r1) =>
         match skipWsL r1 with
         | ':' :: r2 =>
           (match parseValue fuel r2 with
            | none => none
            | some (v, r3) =>
              match skipWsL r3 with
              | ',' :: r4 =>
                parseFields fuel (insertPair acc (String.mk kcs) v)
                  (skipWsL r4)
              | '\x7d' :: r4 =>
                some (JsonValue.obj (insertPair acc (String.mk kcs) v), r4)
              | _ => none)
         | _ => none)
    | _ => none

end

/-- `json.loads`: parse a complete JSON text — one value and then only
whitespace.  The fuel bound exceeds what any input can consume (each
fuel unit spent corresponds to at least half an input character). -/
def parseJson (s : String) : Option JsonValue :=
  match parseValue (2 * s.data.length + 2) s.data with
  | none => none
  | some (v, rest) => if (skipWsL rest).isEmpty then some v else none

/-- The object-or-nothing view of a parse: `some fields` exactly when
the text is valid JSON describing an object. -/
def parseToObj (s : String) : Option (List (String × JsonValue)) :=
  match parseJson s with
  | some (JsonValue.obj fields) => some fields
  | _ => none

/-- Construction input for a projection object: a native mapping, a
text, or anything else (a value that is neither a dict nor a str). -/
inductive ConstructInput : Type where
  | mapping (m : List (String × JsonValue)) : ConstructInput
  | text (s : String) : ConstructInput
  | other : ConstructInput

/-- Modelled from the spec: `json_dict`, imported by sparkdata.py from
`webexteamsdk/utils.py`, whose file is not among the sources here.
Spec §4.1 Construct: accept a native mapping as the internal mapping;
parse text as JSON and accept exactly an object result; reject
(construction error, kind `InvalidDataType`) any input that is neither
a mapping nor valid-object JSON text, including text parsing to a
non-object JSON value. -/
def json_dict (input : ConstructInput) :
    Except SparkError (List (String × JsonValue)) :=
  match input with
  | ConstructInput.mapping m => Except.ok m
  | ConstructInput.text s =>
    (match parseToObj s with
     | some fields => Except.ok fields
     | none => Except.error SparkError.InvalidDataType)
  | ConstructInput.other => Except.error SparkError.InvalidDataType

/-- `SparkData.__init__` (sparkdata.py lines 49..60):
`self._json_data = json_dict(json_data)`, under the constructed
class's name (`SparkData` itself, or a mixin-composed subclass). -/
def SparkData.construct (cls : String) (input : ConstructInput) :
    Except SparkError SparkData :=
  match json_dict input with
  | Except.ok m => Except.ok (SparkData.mk cls m)
  | Except.error e => Except.error e

/-- One character of a CPython `repr` string literal with delimiter
`q`: backslash, the delimiter and control characters are escaped
(`\n`, `\r`, `\t` short forms, `\xHH` otherwise); everything else is
kept.  (CPython also `\x`-escapes other non-printable code points —
a refinement with no bearing on the properties proved here, which is
not modelled.) -/
def pyReprEscChar (q : Char) (c : Char) : List Char :=
  if c = '\\' then ['\\', '\\']
  else if c = q then ['\\', q]
  else if c = '\x0a' then ['\\', 'n']
  else if c = '\x0d' then ['\\', 'r']
  else if c = '\x09' then ['\\', 't']
  else if c.toNat < 32 || c.toNat = 127 then
    ['\\', 'x', hexDigitChar (c.toNat / 16), hexDigitChar (c.toNat % 16)]
  else [c]

/-- Escape a whole string body for `repr`. -/
def pyReprEscChars (q : Char) : List Char → List Char
  | [] => []
  | c :: cs => pyReprEscChar q c ++ pyReprEscChars q cs

/-- CPython `repr` of a `str`: single-quote delimited, except that a
string containing a single quote and no double quote is double-quote
delimited. -/
def pyStrRepr (s : String) : String :=
  let q : Char :=
    if s.data.contains '\x27' && !s.data.contains '"' then '"' else '\x27'
  String.mk (q :: (pyReprEscChars q s.data ++ [q]))

/-- Evaluate a Python string literal (the inverse direction used to
state that the debug form's enclosed text is recoverable): delimiter,
escaped body, matching delimiter, end of input. -/
def pyLitBodyF : Nat → Char → List Char → Option (List Char)
  | 0, _, _ => none
  | Nat.succ fuel, q, cs =>
    match cs with
    | [] => none
    | c :: rest =>
      if c = q then (if rest.isEmpty then some [] else none)
      else if c = '\\' then
        match rest with
        | [] => none
        | e :: rest2 =>
          if e = '\\' then
            (pyLitBodyF fuel q rest2).map (fun s => '\\' :: s)
          else if e = '\x27' then
            (pyLitBodyF fuel q rest2).map (fun s => '\x27' :: s)
          else if e = '"' then
            (pyLitBodyF fuel q rest2).map (fun s => '"' :: s)
          else if e = 'n' then
            (pyLitBodyF fuel q rest2).map (fun s => '\x0a' :: s)
          else if e = 'r' then
            (pyLitBodyF fuel q rest2).map (fun s => '\x0d' :: s)
          else if e = 't' then
            (pyLitBodyF fuel q rest2).map (fun s => '\x09' :: s)
          else if e = 'x' then
            match rest2 with
            | h1 :: h2 :: rest3 =>
              (match hexVal h1, hexVal h2 with
               | some a, some b =>
                 (pyLitBodyF fuel q rest3).map
                   (fun s => Char.ofNat (16 * a + b) :: s)
               | _, _ => none)
            | _ => none
          else none
      else
        (pyLitBodyF fuel q rest).map (fun s => c :: s)

/-- Evaluate a complete Python string literal. -/
def pyLitEval (s : String) : Option String :=
  match s.data with
  | q :: rest =>
    if q = '\x27' || q = '"' then
      (pyLitBodyF (rest.length + 1) q rest).map String.mk
    else none
  | [] => none

/-- The JSON text `json.dumps(self._json_data, ensure_ascii=False)`
built by `SparkData.__repr__`. -/
def SparkData.reprJsonText (o : SparkData) : String :=
  String.mk (serValue false (JsonValue.obj o._json_data))

/-- `SparkData.__repr__` (sparkdata.py lines 100..104):
`"{}({})".format(self.__class__.__name__, repr(json_str))`. -/
def SparkData.repr (o : SparkData) : String :=
  o.className ++ "(" ++ pyStrRepr o.reprJsonText ++ ")"

/-- Key membership in a mapping (`k in d`). -/
def hasKey (m : List (String × JsonValue)) (k : String) : Bool :=
  match m with
  | [] => false
  | (k1, _) :: rest => k1 == k || hasKey rest k

mutual

/-- Well-formedness of a JSON value as Python data: every object at
every depth has pairwise-distinct keys — inherently true of any value
built from Python dicts, and preserved by parsing. -/
def wfValue : JsonValue → Bool
  | JsonValue.null => true
  | JsonValue.bool _ => true
  | JsonValue.num _ => true
  | JsonValue.str _ => true
  | JsonValue.arr xs => wfElems xs
  | JsonValue.obj fs => wfFields fs

/-- Well-formedness of array elements. -/
def wfElems : List JsonValue → Bool
  | [] => true
  | x :: xs => wfValue x && wfElems xs

/-- Well-formedness of an object's field list: the head key absent
from the tail, the values well-formed. -/
def wfFields : List (String × JsonValue) → Bool
  | [] => true
  | (k, v) :: rest => !hasKey rest k && wfValue v && wfFields rest

end

/-- A node of the Python object store used to reason about aliasing:
scalars are immutable; lists and dicts are mutable containers holding
references (addresses) to other nodes. -/
inductive HNode : Type where
  | hscalar (v : JsonValue) : HNode
  | hlist (elems : List Nat) : HNode
  | hdict (fields : List (String × Nat)) : HNode
deriving DecidableEq

/-- A store: node `i` lives at address `i`. -/
structure Store : Type where
  nodes : List HNode
deriving DecidableEq

/-- The addresses a node refers to. -/
def nodeAddrs : HNode → List Nat
  | HNode.hscalar _ => []
  | HNode.hlist es => es
  | HNode.hdict fs => fs.map Prod.snd

/-- A store is closed when every reference stays inside it. -/
def wfStore (s : Store) : Prop :=
  ∀ node ∈ s.nodes, ∀ a ∈ nodeAddrs node, a < s.nodes.length

instance (s : Store) : Decidable (wfStore s) := by
  unfold wfStore
  infer_instance

mutual

/-- The JSON value denoted by the node at address `a` (fuel-bounded
dereferencing: one unit per node visited and per list element, so any
acyclic store is fully read with enough fuel). -/
def readVal : Nat → Store → Nat → Option JsonValue
  | 0, _, _ => none
  | Nat.succ fuel, s, a =>
    match s.nodes[a]? with
    | none => none
    | some (HNode.hscalar v) => some v
    | some (HNode.hlist es) =>
      (match readAddrs fuel s es with
       | none => none
       | some xs => some (JsonValue.arr xs))
    | some (HNode.hdict fs) =>
      (match readFields fuel s fs with
       | none => none
       | some kvs => some (JsonValue.obj kvs))

/-- Read a list of addresses. -/
def readAddrs : Nat → Store → List Nat → Option (List JsonValue)
  | 0, _, _ => none
  | Nat.succ _, _, [] => some []
  | Nat.succ fuel, s, a :: as =>
    match readVal fuel s a, readAddrs fuel s as with
    | some v, some vs => some (v :: vs)
    | _, _ => none

/-- Read a list of keyed addresses. -/
def readFields : Nat → Store → List (String × Nat) →
    Option (List (String × JsonValue))
  | 0, _, _ => none
  | Nat.succ _, _, [] => some []
  | Nat.succ fuel, s, (k, a) :: fs =>
    match readVal fuel s a, readFields fuel s fs with
    | some v, some kvs => some ((k, v) :: kvs)
    | _, _ => none

end

/-- `self._json_data.copy()` and `dict(self._json_data)`: a SHALLOW
copy — a fresh dict node is allocated whose entries point at the very
same value nodes as the source dict's. -/
def dictShallowCopy (s : Store) (a : Nat) : Option (Store × Nat) :=
  match s.nodes[a]? with
  | some (HNode.hdict fields) =>
    some (Store.mk (s.nodes ++ [HNode.hdict fields]), s.nodes.length)
  | _ => none

/-- Replace the node at address `a` in place: the shape of any
caller-side mutation statement (`d[k] = v`, `del d[k]`,
`lst.append(x)`, …) applied to the container object at `a`. -/
def updateNode (s : Store) (a : Nat) (n : HNode) : Store :=
  Store.mk (s.nodes.set a n)

/-- Address lookup in a dict node's field list. -/
def alFindAddr (fields : List (String × Nat)) (k : String) : Option Nat :=
  match fields with
  | [] => none
  | (k1, a) :: rest => if k1 = k then some a else alFindAddr rest k

/-- The address `d[k]` refers to, for the dict node at `a`. -/
def dictGetAddr (s : Store) (a : Nat) (k : String) : Option Nat :=
  match s.nodes[a]? with
  | some (HNode.hdict fields) => alFindAddr fields k
  | _ => none

/-- Key update in a dict node's field list (first position kept, new
key appended). -/
def insertPairAddr (m : List (String × Nat)) (k : String) (target : Nat) :
    List (String × Nat) :=
  match m with
  | [] => [(k, target)]
  | (k1, a1) :: rest =>
    if k1 = k then (k1, target) :: rest
    else (k1, a1) :: insertPairAddr rest k target

/-- `d[k] = x` where `x` is a fresh scalar: allocate the scalar node
and repoint the dict entry at it. -/
def setKeyScalar (s : Store) (a : Nat) (k : String) (v : JsonValue) : Store :=
  match s.nodes[a]? with
  | some (HNode.hdict fields) =>
    updateNode (Store.mk (s.nodes ++ [HNode.hscalar v])) a
      (HNode.hdict (insertPairAddr fields k s.nodes.length))
  | _ => s

/-- C1: for every projection object `o` and key `k` absent from `o`'s
internal mapping, the generic fallback `__getattr__` raises
`AttributeNotFound` carrying the object's type name and the requested
name `k`. -/
theorem sparkdata_getattr_missing_key_raises (o : SparkData) (k : String)
    (h : alGet o._json_data k = none) :
    o.getattr k = Except.error (SparkError.AttributeNotFound o.className k) := by
  unfold SparkData.getattr
  rw [h]

theorem sparkdata_getattr_missing_key_raises_witness :
    (SparkData.mk "Webhook" [("id", JsonValue.str "w1")]).getattr "secret" =
      Except.error (SparkError.AttributeNotFound "Webhook" "secret") :=
  sparkdata_getattr_missing_key_raises
    (SparkData.mk "Webhook" [("id", JsonValue.str "w1")]) "secret" rfl

/-- C2: for every mixin-composed projection object, a declared named
property whose backing key is absent returns the missing sentinel
(`None`, i.e. `JsonValue.null`) and never raises — `propGet` is total
by its type — while the generic fallback (`__getattr__`) is the only
path that raises on the same missing key. -/
theorem mixin_property_missing_key_returns_none (o : SparkData) (k : String)
    (hk : k ∈ declaredPropertyKeys) (h : alGet o._json_data k = none) :
    o.propGet k = PyValue.json JsonValue.null ∧
      o.getattr k = Except.error (SparkError.AttributeNotFound o.className k) := by
  constructor
  · unfold SparkData.propGet dictGet
    rw [h]
  · unfold SparkData.getattr
    rw [h]

theorem mixin_property_missing_key_returns_none_witness :
    (SparkData.mk "Webhook" [("id", JsonValue.str "w1")]).propGet "secret" =
        PyValue.json JsonValue.null ∧
      (SparkData.mk "Webhook" [("id", JsonValue.str "w1")]).getattr "secret" =
        Except.error (SparkError.AttributeNotFound "Webhook" "secret") :=
  mixin_property_missing_key_returns_none
    (SparkData.mk "Webhook" [("id", JsonValue.str "w1")]) "secret"
    (by decide) rfl

/-- C5: for every key present with a non-map value (array, scalar or
null), `__getattr__` returns that value unchanged: arrays are not
wrapped, and their elements stay raw JSON values. -/
theorem getattr_nonmap_value_unchanged (o : SparkData) (k : String)
    (v : JsonValue) (h : alGet o._json_data k = some v)
    (hv : v.isObj = false) :
    o.getattr k = Except.ok (PyValue.json v) := by
  unfold SparkData.getattr
  rw [h]
  cases v <;> simp_all [JsonValue.isObj]

theorem getattr_nonmap_value_unchanged_witness :
    (SparkData.mk "SparkData"
        [("items", JsonValue.arr
          [JsonValue.obj [("id", JsonValue.num 1)], JsonValue.num 2,
           JsonValue.null])]).getattr "items" =
      Except.ok (PyValue.json (JsonValue.arr
        [JsonValue.obj [("id", JsonValue.num 1)], JsonValue.num 2,
         JsonValue.null])) :=
  getattr_nonmap_value_unchanged
    (SparkData.mk "SparkData"
      [("items", JsonValue.arr
        [JsonValue.obj [("id", JsonValue.num 1)], JsonValue.num 2,
         JsonValue.null])])
    "items"
    (JsonValue.arr
      [JsonValue.obj [("id", JsonValue.num 1)], JsonValue.num 2,
       JsonValue.null])
    rfl rfl

/-- C10: through a declared named property, a backing key stored with
JSON `null` and an absent backing key are observationally
indistinguishable — both accesses return the missing sentinel. -/
theorem mixin_property_null_vs_absent_indistinguishable
    (o1 o2 : SparkData) (k : String) (hk : k ∈ declaredPropertyKeys)
    (h1 : alGet o1._json_data k = some JsonValue.null)
    (h2 : alGet o2._json_data k = none) :
    o1.propGet k = PyValue.json JsonValue.null ∧
      o2.propGet k = PyValue.json JsonValue.null ∧
      o1.propGet k = o2.propGet k := by
  unfold SparkData.propGet dictGet
  rw [h1, h2]
  exact ⟨rfl, rfl, rfl⟩

theorem mixin_property_null_vs_absent_indistinguishable_witness :
    (SparkData.mk "License" [("totalUnits", JsonValue.null)]).propGet
        "totalUnits" = PyValue.json JsonValue.null ∧
      (SparkData.mk "License" [("name", JsonValue.str "m")]).propGet
        "totalUnits" = PyValue.json JsonValue.null ∧
      (SparkData.mk "License" [("totalUnits", JsonValue.null)]).propGet
          "totalUnits" =
        (SparkData.mk "License" [("name", JsonValue.str "m")]).propGet
          "totalUnits" :=
  mixin_property_null_vs_absent_indistinguishable
    (SparkData.mk "License" [("totalUnits", JsonValue.null)])
    (SparkData.mk "License" [("name", JsonValue.str "m")])
    "totalUnits" (by decide) rfl rfl

/-- C4 counterexample: `__getattr__` re-wraps a nested map with the
base class — the source reads `return SparkData(item_data)`, not
`self.__class__(item_data)` — so on a mixin-composed object of class
`"Webhook"` the wrapper that comes back is of kind `"SparkData"`, not
of the same kind as the receiver, refuting the claim as stated. -/
theorem getattr_nested_wrap_same_kind_cex :
    (SparkData.mk "Webhook"
        [("filter", JsonValue.obj [("roomId", JsonValue.str "r1")])]).getattr
        "filter" =
      Except.ok (PyValue.spark
        (SparkData.mk "SparkData" [("roomId", JsonValue.str "r1")])) ∧
      (SparkData.mk "Webhook"
        [("filter", JsonValue.obj [("roomId", JsonValue.str "r1")])]).className =
        "Webhook" ∧
      ("SparkData" : String) ≠ "Webhook" := by
  refine ⟨rfl, rfl, ?_⟩
  decide

/-- C4 amended: for every key present with a map value `v`,
`__getattr__` returns a newly constructed projection object of the
base kind (`SparkData` — the same kind as the receiver only when the
receiver is itself a plain `SparkData`) whose `to_dict` equals `v`;
the wrapper is built afresh on each access, the state holding no
cache. -/
theorem getattr_nested_map_wraps_base_kind (o : SparkData) (k : String)
    (fields : List (String × JsonValue))
    (h : alGet o._json_data k = some (JsonValue.obj fields)) :
    o.getattr k =
        Except.ok (PyValue.spark (SparkData.mk "SparkData" fields)) ∧
      (SparkData.mk "SparkData" fields).to_dict = fields ∧
      (SparkData.mk "SparkData" fields).className = "SparkData" := by
  refine ⟨?_, rfl, rfl⟩
  unfold SparkData.getattr
  rw [h]

theorem getattr_nested_map_wraps_base_kind_witness :
    (SparkData.mk "Webhook"
        [("created", JsonValue.str "t"),
         ("filter", JsonValue.obj [("roomId", JsonValue.str "r1")])]).getattr
        "filter" =
        Except.ok (PyValue.spark
          (SparkData.mk "SparkData" [("roomId", JsonValue.str "r1")])) ∧
      (SparkData.mk "SparkData"
          [("roomId", JsonValue.str "r1")]).to_dict =
        [("roomId", JsonValue.str "r1")] ∧
      (SparkData.mk "SparkData"
          [("roomId", JsonValue.str "r1")]).className = "SparkData" :=
  getattr_nested_map_wraps_base_kind
    (SparkData.mk "Webhook"
      [("created", JsonValue.str "t"),
       ("filter", JsonValue.obj [("roomId", JsonValue.str "r1")])])
    "filter" [("roomId", JsonValue.str "r1")] rfl

/-- C3 counterexample: a declared property is not sugar for the
generic `get_field` on every JSON value type.  With a map stored under
the backing key, the property (`self._json_data.get(key)`) returns the
raw dict while `__getattr__` returns a fresh `SparkData` wrapper; the
two results differ. -/
theorem mixin_property_getattr_sugar_cex :
    ¬ (Except.ok ((SparkData.mk "Webhook"
          [("secret", JsonValue.obj [("alg", JsonValue.str "h")])]).propGet
          "secret") =
        (SparkData.mk "Webhook"
          [("secret", JsonValue.obj [("alg", JsonValue.str "h")])]).getattr
          "secret") := by
  decide

/-- C3 amended: a declared property agrees with the generic
`get_field` whenever the backing key is present with a non-map value;
when the value is a map, the property returns the raw mapping
unwrapped while `get_field` returns a newly wrapped base-kind
projection object. -/
theorem mixin_property_getattr_agreement (o : SparkData) (k : String)
    (v : JsonValue) (hk : k ∈ declaredPropertyKeys)
    (h : alGet o._json_data k = some v) :
    (v.isObj = false → Except.ok (o.propGet k) = o.getattr k) ∧
      (∀ fields, v = JsonValue.obj fields →
        o.propGet k = PyValue.json (JsonValue.obj fields) ∧
          o.getattr k = Except.ok (PyValue.spark
            (SparkData.mk "SparkData" fields))) := by
  constructor
  · intro hv
    unfold SparkData.propGet dictGet SparkData.getattr
    rw [h]
    cases v <;> simp_all [JsonValue.isObj]
  · rintro fields rfl
    constructor
    · unfold SparkData.propGet dictGet
      rw [h]
    · unfold SparkData.getattr
      rw [h]

theorem mixin_property_getattr_agreement_witness :
    ((JsonValue.num 10).isObj = false →
        Except.ok ((SparkData.mk "License"
          [("totalUnits", JsonValue.num 10)]).propGet "totalUnits") =
        (SparkData.mk "License"
          [("totalUnits", JsonValue.num 10)]).getattr "totalUnits") ∧
      (∀ fields, JsonValue.num 10 = JsonValue.obj fields →
        (SparkData.mk "License"
            [("totalUnits", JsonValue.num 10)]).propGet "totalUnits" =
          PyValue.json (JsonValue.obj fields) ∧
          (SparkData.mk "License"
            [("totalUnits", JsonValue.num 10)]).getattr "totalUnits" =
          Except.ok (PyValue.spark (SparkData.mk "SparkData" fields))) :=
  mixin_property_getattr_agreement
    (SparkData.mk "License" [("totalUnits", JsonValue.num 10)])
    "totalUnits" (JsonValue.num 10) (by decide) rfl

/-- C6: construction accepts every native mapping and every JSON text
parsing to an object, and rejects with `InvalidDataType` every text
that is not valid JSON or parses to a non-object value, as well as
any input that is neither a mapping nor a text. -/
theorem construct_input_validation (cls : String)
    (m : List (String × JsonValue)) (s t : String)
    (fields : List (String × JsonValue))
    (hs : parseToObj s = some fields) (ht : parseToObj t = none) :
    SparkData.construct cls (ConstructInput.mapping m) =
        Except.ok (SparkData.mk cls m) ∧
      SparkData.construct cls (ConstructInput.text s) =
        Except.ok (SparkData.mk cls fields) ∧
      SparkData.construct cls (ConstructInput.text t) =
        Except.error SparkError.InvalidDataType ∧
      SparkData.construct cls ConstructInput.other =
        Except.error SparkError.InvalidDataType := by
  refine ⟨rfl, ?_, ?_, rfl⟩
  · simp only [SparkData.construct, json_dict, hs]
  · simp only [SparkData.construct, json_dict, ht]

theorem construct_input_validation_witness :
    SparkData.construct "Webhook"
        (ConstructInput.mapping [("id", JsonValue.str "w1")]) =
        Except.ok (SparkData.mk "Webhook" [("id", JsonValue.str "w1")]) ∧
      SparkData.construct "Webhook"
        (ConstructInput.text "\x7b\"id\": \"w1\", \"status\": \"active\"\x7d") =
        Except.ok (SparkData.mk "Webhook"
          [("id", JsonValue.str "w1"), ("status", JsonValue.str "active")]) ∧
      SparkData.construct "Webhook"
        (ConstructInput.text "\"not a json object\"") =
        Except.error SparkError.InvalidDataType ∧
      SparkData.construct "Webhook" ConstructInput.other =
        Except.error SparkError.InvalidDataType :=
  construct_input_validation "Webhook" [("id", JsonValue.str "w1")]
    "\x7b\"id\": \"w1\", \"status\": \"active\"\x7d" "\"not a json object\""
    [("id", JsonValue.str "w1"), ("status", JsonValue.str "active")]
    rfl rfl

/-- Nodes recorded below `n` reference only addresses below `n`. -/
def boundedUpTo (s : Store) (n : Nat) : Prop :=
  ∀ i node, i < n → s.nodes[i]? = some node → ∀ a ∈ nodeAddrs node, a < n

theorem wfStore_boundedUpTo (s : Store) (h : wfStore s) :
    boundedUpTo s s.nodes.length :=
  fun _ node _ hnode a ha => h node (List.getElem?_mem hnode) a ha

/-- Reading below `n` sees only nodes below `n`: two stores that agree
there read the same values, at every fuel. -/
theorem read_agree (n : Nat) (s s' : Store)
    (hb : boundedUpTo s n)
    (ha : ∀ i, i < n → s'.nodes[i]? = s.nodes[i]?) :
    ∀ fuel,
      (∀ a, a < n → readVal fuel s' a = readVal fuel s a) ∧
      (∀ l, (∀ a ∈ l, a < n) →
        readAddrs fuel s' l = readAddrs fuel s l) ∧
      (∀ l, (∀ p ∈ l, p.2 < n) →
        readFields fuel s' l = readFields fuel s l) := by
  intro fuel
  induction fuel with
  | zero => exact ⟨fun _ _ => rfl, fun _ _ => rfl, fun _ _ => rfl⟩
  | succ fuel ih =>
    refine ⟨?_, ?_, ?_⟩
    · intro a han
      rw [readVal, readVal, ha a han]
      cases hnode : s.nodes[a]? with
      | none => rfl
      | some node =>
        cases node with
        | hscalar v => rfl
        | hlist es =>
          have hes : ∀ b ∈ es, b < n :=
            fun b hmem => hb a _ han hnode b hmem
          simp only [ih.2.1 es hes]
        | hdict fs =>
          have hfs : ∀ p ∈ fs, p.2 < n := fun p hp =>
            hb a _ han hnode p.2 (List.mem_map_of_mem Prod.snd hp)
          simp only [ih.2.2 fs hfs]
    · intro l hl
      cases l with
      | nil => rfl
      | cons b bs =>
        rw [readAddrs, readAddrs, ih.1 b (hl b (by simp)),
          ih.2.1 bs (fun x hx => hl x (by simp [hx]))]
    · intro l hl
      cases l with
      | nil => rfl
      | cons p ps =>
        obtain ⟨k, b⟩ := p
        rw [readFields, readFields, ih.1 b (hl (k, b) (by simp)),
          ih.2.2 ps (fun x hx => hl x (by simp [hx]))]

/-- C7 amended: `json_data` / `to_dict` return a SHALLOW copy.  The
copying operation itself mutates nothing visible from the source
object, the copy is a fresh dict node of equal content, and any
in-place mutation of the copy's own (top-level) node leaves the source
object's value unchanged.  (Mutation reached through a shared nested
node is NOT covered — see the counterexample.) -/
theorem to_dict_shallow_copy_top_level_independent
    (s s' : Store) (a c : Nat) (nnew : HNode) (fuel : Nat)
    (hwf : wfStore s) (hcopy : dictShallowCopy s a = some (s', c)) :
    readVal fuel s' a = readVal fuel s a ∧
      readVal (fuel + 1) s' c = readVal (fuel + 1) s a ∧
      readVal fuel (updateNode s' c nnew) a = readVal fuel s a := by
  unfold dictShallowCopy at hcopy
  obtain ⟨fields, hnode⟩ : ∃ fields, s.nodes[a]? = some (HNode.hdict fields) := by
    cases h : s.nodes[a]? with
    | none => rw [h] at hcopy; exact absurd hcopy (by simp)
    | some node =>
      cases node with
      | hscalar v => rw [h] at hcopy; exact absurd hcopy (by simp)
      | hlist es => rw [h] at hcopy; exact absurd hcopy (by simp)
      | hdict fields => exact ⟨fields, rfl⟩
  rw [hnode] at hcopy
  simp only [Option.some.injEq, Prod.mk.injEq] at hcopy
  obtain ⟨hs', hc⟩ := hcopy
  have hlen : a < s.nodes.length := (List.getElem?_eq_some.mp hnode).1
  have hb := wfStore_boundedUpTo s hwf
  have hagree1 : ∀ i, i < s.nodes.length → s'.nodes[i]? = s.nodes[i]? := by
    intro i hi
    rw [← hs']
    simp only [List.getElem?_append]
    rw [if_pos hi]
  have hagree2 : ∀ i, i < s.nodes.length →
      (updateNode s' c nnew).nodes[i]? = s.nodes[i]? := by
    intro i hi
    unfold updateNode
    simp only
    rw [List.getElem?_set_ne (by omega : c ≠ i)]
    exact hagree1 i hi
  have h1 := (read_agree s.nodes.length s s' hb hagree1 fuel).1 a hlen
  have h3 := (read_agree s.nodes.length s (updateNode s' c nnew) hb
    hagree2 fuel).1 a hlen
  refine ⟨h1, ?_, h3⟩
  rw [readVal, readVal, hnode]
  have hcnode : s'.nodes[c]? = some (HNode.hdict fields) := by
    rw [← hs', ← hc]
    simp
  rw [hcnode]
  have hfs : ∀ p ∈ fields, p.2 < s.nodes.length := fun p hp =>
    hb a _ hlen hnode p.2 (List.mem_map_of_mem Prod.snd hp)
  simp only [(read_agree s.nodes.length s s' hb hagree1 fuel).2.2 fields hfs]

theorem to_dict_shallow_copy_top_level_independent_witness :
    readVal 9
        (Store.mk [HNode.hscalar (JsonValue.num 1), HNode.hdict [("x", 0)],
          HNode.hdict [("n", 1)], HNode.hdict [("n", 1)]]) 2 =
      readVal 9
        (Store.mk [HNode.hscalar (JsonValue.num 1), HNode.hdict [("x", 0)],
          HNode.hdict [("n", 1)]]) 2 ∧
      readVal 10
        (Store.mk [HNode.hscalar (JsonValue.num 1), HNode.hdict [("x", 0)],
          HNode.hdict [("n", 1)], HNode.hdict [("n", 1)]]) 3 =
      readVal 10
        (Store.mk [HNode.hscalar (JsonValue.num 1), HNode.hdict [("x", 0)],
          HNode.hdict [("n", 1)]]) 2 ∧
      readVal 9
        (updateNode
          (Store.mk [HNode.hscalar (JsonValue.num 1), HNode.hdict [("x", 0)],
            HNode.hdict [("n", 1)], HNode.hdict [("n", 1)]]) 3
          (HNode.hdict [])) 2 =
      readVal 9
        (Store.mk [HNode.hscalar (JsonValue.num 1), HNode.hdict [("x", 0)],
          HNode.hdict [("n", 1)]]) 2 :=
  to_dict_shallow_copy_top_level_independent
    (Store.mk [HNode.hscalar (JsonValue.num 1), HNode.hdict [("x", 0)],
      HNode.hdict [("n", 1)]])
    (Store.mk [HNode.hscalar (JsonValue.num 1), HNode.hdict [("x", 0)],
      HNode.hdict [("n", 1)], HNode.hdict [("n", 1)]])
    2 3 (HNode.hdict []) 9 (by decide) rfl

/-- C7 counterexample: the copies are shallow (`dict.copy` /
`dict(d)`), so a nested map is shared between the source object and
the returned copy; mutating it through the copy
(`to_dict()["n"]["x"] = 99`) changes what the source object's mapping
reads back — the claimed independence "at any depth" fails. -/
theorem to_dict_nested_mutation_affects_source_cex :
    dictShallowCopy
        (Store.mk [HNode.hscalar (JsonValue.num 1), HNode.hdict [("x", 0)],
          HNode.hdict [("n", 1)]]) 2 =
      some (Store.mk [HNode.hscalar (JsonValue.num 1), HNode.hdict [("x", 0)],
        HNode.hdict [("n", 1)], HNode.hdict [("n", 1)]], 3) ∧
      dictGetAddr
        (Store.mk [HNode.hscalar (JsonValue.num 1), HNode.hdict [("x", 0)],
          HNode.hdict [("n", 1)], HNode.hdict [("n", 1)]]) 3 "n" = some 1 ∧
      readVal 9
        (Store.mk [HNode.hscalar (JsonValue.num 1), HNode.hdict [("x", 0)],
          HNode.hdict [("n", 1)]]) 2 =
        some (JsonValue.obj [("n", JsonValue.obj [("x", JsonValue.num 1)])]) ∧
      readVal 9
        (setKeyScalar
          (Store.mk [HNode.hscalar (JsonValue.num 1), HNode.hdict [("x", 0)],
            HNode.hdict [("n", 1)], HNode.hdict [("n", 1)]]) 1 "x"
          (JsonValue.num 99)) 2 =
        some (JsonValue.obj [("n", JsonValue.obj [("x", JsonValue.num 99)])]) ∧
      JsonValue.obj [("n", JsonValue.obj [("x", JsonValue.num 1)])] ≠
        JsonValue.obj [("n", JsonValue.obj [("x", JsonValue.num 99)])] := by
  decide

theorem toNat_ofNat_valid (n : Nat) (h : Nat.isValidChar n) :
    (Char.ofNat n).toNat = n := by
  simp only [Char.ofNat, h, dif_pos, Char.ofNatAux, Char.toNat, UInt32.toNat,
    BitVec.toNat_ofNatLt]

theorem digitChar_toNat (d : Nat) (h : d < 10) :
    (digitChar d).toNat = 48 + d :=
  toNat_ofNat_valid (48 + d) (Or.inl (by omega))

theorem natToDigitsAux_succ (fuel n : Nat) :
    natToDigitsAux (fuel + 1) n =
      if n < 10 then [digitChar n]
      else natToDigitsAux fuel (n / 10) ++ [digitChar (n % 10)] := rfl

theorem isDigitChar_digitChar (d : Nat) (h : d < 10) :
    isDigitChar (digitChar d) = true := by
  simp only [isDigitChar, digitChar_toNat d h, Bool.and_eq_true,
    decide_eq_true_eq]
  omega

theorem hexVal_hexDigitChar (d : Nat) (h : d < 16) :
    hexVal (hexDigitChar d) = some d := by
  unfold hexDigitChar hexVal
  by_cases h10 : d < 10
  · rw [if_pos h10, toNat_ofNat_valid (48 + d) (Or.inl (by omega))]
    rw [if_pos (by omega)]
    simp only [Option.some.injEq]
    omega
  · rw [if_neg h10, toNat_ofNat_valid (87 + d) (Or.inl (by omega))]
    rw [if_neg (by omega), if_pos (by omega)]
    simp only [Option.some.injEq]
    omega

theorem natToDigitsAux_stable (n : Nat) :
    ∀ fuel, n < fuel → natToDigitsAux fuel n = natToDigits n := by
  induction n using Nat.strong_induction_on with
  | _ n ih =>
    intro fuel hfuel
    match fuel with
    | Nat.succ f =>
      by_cases h10 : n < 10
      · rw [natToDigits, natToDigitsAux_succ, natToDigitsAux_succ,
          if_pos h10, if_pos h10]
      · rw [natToDigits, natToDigitsAux_succ, natToDigitsAux_succ,
          if_neg h10, if_neg h10]
        have hdiv : n / 10 < n := Nat.div_lt_self (by omega) (by omega)
        rw [ih (n / 10) hdiv f (by omega), ih (n / 10) hdiv n (by omega)]

theorem natToDigits_lt (n : Nat) (h : n < 10) :
    natToDigits n = [digitChar n] := by
  rw [natToDigits, natToDigitsAux_succ, if_pos h]

theorem natToDigits_ge (n : Nat) (h : 10 ≤ n) :
    natToDigits n = natToDigits (n / 10) ++ [digitChar (n % 10)] := by
  rw [natToDigits, natToDigitsAux_succ, if_neg (Nat.not_lt.mpr h),
    natToDigitsAux_stable (n / 10) n (Nat.div_lt_self (by omega) (by omega))]

theorem natToDigits_ne_nil (n : Nat) : natToDigits n ≠ [] := by
  by_cases h : n < 10
  · rw [natToDigits_lt n h]; simp
  · rw [natToDigits_ge n (by omega)]; simp

theorem natToDigits_all_digits (n : Nat) :
    ∀ c ∈ natToDigits n, isDigitChar c = true := by
  induction n using Nat.strong_induction_on with
  | _ n ih =>
    by_cases h : n < 10
    · rw [natToDigits_lt n h]
      intro c hc
      simp at hc
      subst hc
      exact isDigitChar_digitChar n h
    · rw [natToDigits_ge n (by omega)]
      intro c hc
      simp at hc
      cases hc with
      | inl h1 => exact ih (n / 10) (Nat.div_lt_self (by omega) (by omega)) c h1
      | inr h2 =>
        subst h2
        exact isDigitChar_digitChar (n % 10) (Nat.mod_lt n (by omega))

theorem digitsToNat_nil (acc : Nat) : digitsToNat acc [] = acc := rfl

theorem digitsToNat_cons (acc : Nat) (c : Char) (l : List Char) :
    digitsToNat acc (c :: l) =
      digitsToNat (acc * 10 + (c.toNat - 48)) l := rfl

theorem digitsToNat_append (l1 l2 : List Char) :
    ∀ acc, digitsToNat acc (l1 ++ l2) = digitsToNat (digitsToNat acc l1) l2 := by
  induction l1 with
  | nil => intro acc; rfl
  | cons c cs ih =>
    intro acc
    rw [List.cons_append, digitsToNat_cons, ih, digitsToNat_cons]

theorem digitsToNat_natToDigits (n : Nat) :
    ∀ acc, digitsToNat acc (natToDigits n) =
      acc * 10 ^ (natToDigits n).length + n := by
  induction n using Nat.strong_induction_on with
  | _ n ih =>
    intro acc
    by_cases h : n < 10
    · rw [natToDigits_lt n h, digitsToNat_cons, digitsToNat_nil,
        digitChar_toNat n h]
      simp only [List.length_cons, List.length_nil, zero_add, pow_one]
      omega
    · rw [natToDigits_ge n (by omega), digitsToNat_append,
        ih (n / 10) (Nat.div_lt_self (by omega) (by omega)) acc,
        digitsToNat_cons, digitsToNat_nil,
        digitChar_toNat (n % 10) (Nat.mod_lt n (by omega))]
      simp only [List.length_append, List.length_cons, List.length_nil,
        zero_add, pow_succ, ← mul_assoc]
      generalize acc * 10 ^ (natToDigits (n / 10)).length = Q
      omega

/-- The char after a serialized number must not be a digit (so that the
greedy digit run stops exactly there). -/
def headNotDigit : List Char → Bool
  | [] => true
  | c :: _ => !isDigitChar c

theorem takeWhile_append_all (p : Char → Bool) (l1 l2 : List Char)
    (h : ∀ c ∈ l1, p c = true) :
    (l1 ++ l2).takeWhile p = l1 ++ l2.takeWhile p := by
  induction l1 with
  | nil => rfl
  | cons c cs ih =>
    simp [List.takeWhile_cons, h c (by simp),
      ih (fun x hx => h x (by simp [hx]))]

theorem dropWhile_append_all (p : Char → Bool) (l1 l2 : List Char)
    (h : ∀ c ∈ l1, p c = true) :
    (l1 ++ l2).dropWhile p = l2.dropWhile p := by
  induction l1 with
  | nil => rfl
  | cons c cs ih =>
    simp [List.dropWhile_cons, h c (by simp),
      ih (fun x hx => h x (by simp [hx]))]

theorem takeWhile_headNot (p : Char → Bool) (l : List Char)
    (h : (match l with | [] => true | c :: _ => !p c) = true) :
    l.takeWhile p = [] := by
  cases l with
  | nil => rfl
  | cons c cs => simp only [List.takeWhile_cons]; simp at h; simp [h]

theorem dropWhile_headNot (p : Char → Bool) (l : List Char)
    (h : (match l with | [] => true | c :: _ => !p c) = true) :
    l.dropWhile p = l := by
  cases l with
  | nil => rfl
  | cons c cs => simp only [List.dropWhile_cons]; simp at h; simp [h]

theorem parseNat_natToDigits (n : Nat) (rest : List Char)
    (h : headNotDigit rest = true) :
    parseNat (natToDigits n ++ rest) = some (n, rest) := by
  unfold parseNat
  rw [takeWhile_append_all isDigitChar _ _ (natToDigits_all_digits n),
    takeWhile_headNot isDigitChar rest (by exact h),
    dropWhile_append_all isDigitChar _ _ (natToDigits_all_digits n),
    dropWhile_headNot isDigitChar rest (by exact h)]
  have hne := natToDigits_ne_nil n
  cases hd : natToDigits n ++ [] with
  | nil => simp at hd; exact absurd hd hne
  | cons c cs =>
    simp only
    rw [← hd]
    simp only [List.append_nil]
    rw [digitsToNat_natToDigits n 0]
    simp

/-- Whitespace-only prefixes (what `parseValue` skips on entry). -/
def wsOnly (l : List Char) : Prop :=
  ∀ c ∈ l, isJsonWs c = true

theorem skipWsL_append_wsOnly (pre l : List Char) (h : wsOnly pre) :
    skipWsL (pre ++ l) = skipWsL l := by
  unfold skipWsL
  exact dropWhile_append_all isJsonWs pre l h

theorem skipWsL_cons_not (c : Char) (l : List Char)
    (h : isJsonWs c = false) : skipWsL (c :: l) = c :: l := by
  unfold skipWsL
  simp [List.dropWhile_cons, h]

theorem wsOnly_nil : wsOnly [] := fun c hc => absurd hc (by simp)

theorem wsOnly_space : wsOnly [' '] := by
  intro c hc
  simp at hc
  subst hc
  rfl

theorem parse4Hex_hex4 (n : Nat) (h : n < 65536) (rest : List Char) :
    parse4Hex (hex4 n ++ rest) = some (n, rest) := by
  simp only [hex4, List.cons_append, List.nil_append, parse4Hex,
    hexVal_hexDigitChar (n / 4096 % 16) (by omega),
    hexVal_hexDigitChar (n / 256 % 16) (by omega),
    hexVal_hexDigitChar (n / 16 % 16) (by omega),
    hexVal_hexDigitChar (n % 16) (by omega)]
  simp only [Option.some.injEq, Prod.mk.injEq, and_true]
  omega

theorem char_valid_toNat (c : Char) : Nat.isValidChar c.toNat := c.valid

theorem parseStringChar_u (n : Nat) (hlt : n < 65536)
    (hlo : ¬ (55296 ≤ n ∧ n < 56320)) (hhi : ¬ (56320 ≤ n ∧ n < 57344))
    (rest : List Char) :
    parseStringChar ('\\' :: 'u' :: (hex4 n ++ rest)) =
      some (Char.ofNat n, rest) := by
  simp only [parseStringChar, reduceIte]
  rw [parse4Hex_hex4 n hlt rest]
  simp [hlo, hhi]

theorem parseStringChar_pair (n m : Nat) (h1 : 55296 ≤ n) (h2 : n < 56320)
    (h3 : 56320 ≤ m) (h4 : m < 57344) (rest : List Char) :
    parseStringChar
        ('\\' :: 'u' :: (hex4 n ++ ('\\' :: 'u' :: (hex4 m ++ rest)))) =
      some (Char.ofNat (65536 + (n - 55296) * 1024 + (m - 56320)), rest) := by
  simp only [parseStringChar, reduceIte]
  rw [parse4Hex_hex4 n (by omega)]
  simp only [if_pos (And.intro h1 h2), reduceIte]
  rw [parse4Hex_hex4 m (by omega)]
  simp [h3, h4]

theorem char_valid_or (c : Char) :
    c.toNat < 55296 ∨ (57344 ≤ c.toNat ∧ c.toNat < 1114112) :=
  char_valid_toNat c

theorem parseStringChar_jsonEscapeChar (ea : Bool) (c : Char)
    (rest : List Char) :
    parseStringChar (jsonEscapeChar ea c ++ rest) = some (c, rest) := by
  unfold jsonEscapeChar
  by_cases h1 : c = '"'
  · subst h1; simp [parseStringChar]
  rw [if_neg h1]
  by_cases h2 : c = '\\'
  · subst h2; simp [parseStringChar]
  rw [if_neg h2]
  by_cases h3 : c = '\x08'
  · subst h3; simp [parseStringChar]
  rw [if_neg h3]
  by_cases h4 : c = '\x09'
  · subst h4; simp [parseStringChar]
  rw [if_neg h4]
  by_cases h5 : c = '\x0a'
  · subst h5; simp [parseStringChar]
  rw [if_neg h5]
  by_cases h6 : c = '\x0c'
  · subst h6; simp [parseStringChar]
  rw [if_neg h6]
  by_cases h7 : c = '\x0d'
  · subst h7; simp [parseStringChar]
  rw [if_neg h7]
  by_cases h8 : c.toNat < 32
  · rw [if_pos h8]
    simp only [List.cons_append]
    rw [parseStringChar_u c.toNat (by omega) (by omega) (by omega) rest,
      Char.ofNat_toNat]
  rw [if_neg h8]
  by_cases h9 : (ea && decide (127 ≤ c.toNat)) = true
  · rw [if_pos h9]
    rcases char_valid_or c with hv | hv
    · rw [if_pos (by omega)]
      simp only [List.cons_append]
      rw [parseStringChar_u c.toNat (by omega) (by omega) (by omega) rest,
        Char.ofNat_toNat]
    · by_cases h10 : c.toNat < 65536
      · rw [if_pos h10]
        simp only [List.cons_append]
        rw [parseStringChar_u c.toNat (by omega) (by omega) (by omega) rest,
          Char.ofNat_toNat]
      · rw [if_neg h10]
        simp only [List.cons_append, List.append_assoc, List.nil_append]
        rw [parseStringChar_pair (55296 + (c.toNat - 65536) / 1024)
          (56320 + (c.toNat - 65536) % 1024) (by omega) (by omega)
          (by omega) (by omega) rest]
        have harith : 65536 +
            (55296 + (c.toNat - 65536) / 1024 - 55296) * 1024 +
            (56320 + (c.toNat - 65536) % 1024 - 56320) = c.toNat := by
          omega
        rw [harith, Char.ofNat_toNat]
  · rw [if_neg h9]
    simp only [List.cons_append, List.nil_append, parseStringChar]
    rw [if_neg h1, if_neg h2, if_neg h8]

theorem jsonEscapeChar_head (ea : Bool) (c : Char) :
    ∃ d ds, jsonEscapeChar ea c = d :: ds ∧ d ≠ '"' := by
  unfold jsonEscapeChar
  by_cases h1 : c = '"'
  · rw [if_pos h1]; exact ⟨'\\', ['"'], rfl, by decide⟩
  rw [if_neg h1]
  by_cases h2 : c = '\\'
  · rw [if_pos h2]; exact ⟨'\\', ['\\'], rfl, by decide⟩
  rw [if_neg h2]
  by_cases h3 : c = '\x08'
  · rw [if_pos h3]; exact ⟨'\\', ['b'], rfl, by decide⟩
  rw [if_neg h3]
  by_cases h4 : c = '\x09'
  · rw [if_pos h4]; exact ⟨'\\', ['t'], rfl, by decide⟩
  rw [if_neg h4]
  by_cases h5 : c = '\x0a'
  · rw [if_pos h5]; exact ⟨'\\', ['n'], rfl, by decide⟩
  rw [if_neg h5]
  by_cases h6 : c = '\x0c'
  · rw [if_pos h6]; exact ⟨'\\', ['f'], rfl, by decide⟩
  rw [if_neg h6]
  by_cases h7 : c = '\x0d'
  · rw [if_pos h7]; exact ⟨'\\', ['r'], rfl, by decide⟩
  rw [if_neg h7]
  by_cases h8 : c.toNat < 32
  · rw [if_pos h8]; exact ⟨'\\', 'u' :: hex4 c.toNat, rfl, by decide⟩
  rw [if_neg h8]
  by_cases h9 : (ea && decide (127 ≤ c.toNat)) = true
  · rw [if_pos h9]
    by_cases h10 : c.toNat < 65536
    · rw [if_pos h10]; exact ⟨'\\', 'u' :: hex4 c.toNat, rfl, by decide⟩
    · rw [if_neg h10]
      exact ⟨'\\', 'u' :: hex4 (55296 + (c.toNat - 65536) / 1024) ++
        ('\\' :: 'u' :: hex4 (56320 + (c.toNat - 65536) % 1024)), rfl,
        by decide⟩
  · rw [if_neg h9]; exact ⟨c, [], rfl, h1⟩

theorem escStringChars_length_ge (ea : Bool) (s : List Char) :
    s.length ≤ (escStringChars ea s).length := by
  induction s with
  | nil => simp [escStringChars]
  | cons c cs ih =>
    obtain ⟨d, ds, hd, _⟩ := jsonEscapeChar_head ea c
    simp only [escStringChars, List.length_append, List.length_cons, hd]
    omega

theorem parseStringBodyF_ser (ea : Bool) (s : List Char) :
    ∀ fuel rest, s.length < fuel →
      parseStringBodyF fuel (escStringChars ea s ++ ('"' :: rest)) =
        some (s, rest) := by
  induction s with
  | nil =>
    intro fuel rest h
    match fuel with
    | Nat.succ f => simp [escStringChars, parseStringBodyF]
  | cons c cs ih =>
    intro fuel rest h
    match fuel with
    | Nat.succ f =>
      obtain ⟨d, ds, hd, hdq⟩ := jsonEscapeChar_head ea c
      rw [show escStringChars ea (c :: cs) ++ ('"' :: rest) =
        jsonEscapeChar ea c ++ (escStringChars ea cs ++ ('"' :: rest)) by
          simp [escStringChars, List.append_assoc]]
      have hps := parseStringChar_jsonEscapeChar ea c
        (escStringChars ea cs ++ ('"' :: rest))
      rw [hd]
      rw [hd] at hps
      simp only [List.cons_append] at hps ⊢
      rw [parseStringBodyF, if_neg hdq, hps]
      simp [ih f rest (by simp at h; omega)]

theorem parseStringTail_ser (ea : Bool) (s : List Char) (rest : List Char) :
    parseStringTail (escStringChars ea s ++ ('"' :: rest)) = some (s, rest) := by
  unfold parseStringTail
  apply parseStringBodyF_ser
  have := escStringChars_length_ge ea s
  simp only [List.length_append, List.length_cons]
  omega

theorem string_mk_data (s : String) : String.mk s.data = s := by
  cases s
  rfl

theorem skipWsL_idem (cs : List Char) : skipWsL (skipWsL cs) = skipWsL cs := by
  induction cs with
  | nil => rfl
  | cons c l ih =>
    by_cases h : isJsonWs c = true
    · unfold skipWsL
      simp only [List.dropWhile_cons, h]
      exact ih
    · rw [skipWsL_cons_not c l (by simpa using h),
        skipWsL_cons_not c l (by simpa using h)]

theorem parseValue_skipWs (f : Nat) (cs : List Char) :
    parseValue (Nat.succ f) cs = parseValue (Nat.succ f) (skipWsL cs) := by
  rw [parseValue, parseValue, skipWsL_idem]

theorem digit_props (c : Char) (h : isDigitChar c = true) :
    isJsonWs c = false ∧ c ≠ ']' ∧ c ≠ 'n' ∧ c ≠ 't' ∧ c ≠ 'f' ∧
      c ≠ '"' ∧ c ≠ '[' ∧ c ≠ '\x7b' ∧ c ≠ '-' ∧ c ≠ '\x7d' := by
  have hne : ∀ d : Char, isDigitChar d = false → c ≠ d := by
    intro d hd he
    subst he
    rw [h] at hd
    exact absurd hd (by simp)
  have h32 := hne ' ' (by decide)
  have h9 := hne '\x09' (by decide)
  have h10 := hne '\x0a' (by decide)
  have h13 := hne '\x0d' (by decide)
  refine ⟨?_, hne ']' (by decide), hne 'n' (by decide), hne 't' (by decide),
    hne 'f' (by decide), hne '"' (by decide), hne '[' (by decide),
    hne '\x7b' (by decide), hne '-' (by decide), hne '\x7d' (by decide)⟩
  simp [isJsonWs, h32, h9, h10, h13]

theorem intToChars_head (n : Int) :
    ∃ d ds, intToChars n = d :: ds ∧
      (d = '-' ∨ isDigitChar d = true) := by
  unfold intToChars
  by_cases h : n < 0
  · rw [if_pos h]
    exact ⟨'-', _, rfl, Or.inl rfl⟩
  · rw [if_neg h]
    cases hd : natToDigits n.toNat with
    | nil => exact absurd hd (natToDigits_ne_nil _)
    | cons d ds =>
      refine ⟨d, ds, rfl, Or.inr ?_⟩
      exact natToDigits_all_digits n.toNat d (by rw [hd]; simp)

theorem serValue_head (ea : Bool) (v : JsonValue) :
    ∃ d ds, serValue ea v = d :: ds ∧ isJsonWs d = false ∧
      d ≠ ']' ∧ d ≠ '\x7d' := by
  cases v with
  | null => exact ⟨'n', _, rfl, rfl, by decide, by decide⟩
  | bool b =>
    cases b with
    | true => exact ⟨'t', _, rfl, rfl, by decide, by decide⟩
    | false => exact ⟨'f', _, rfl, rfl, by decide, by decide⟩
  | num n =>
    obtain ⟨d, ds, hd, hcase⟩ := intToChars_head n
    refine ⟨d, ds, hd, ?_⟩
    cases hcase with
    | inl h => subst h; exact ⟨rfl, by decide, by decide⟩
    | inr h =>
      obtain ⟨hws, hne1, _, _, _, _, _, _, _, hne2⟩ := digit_props d h
      exact ⟨hws, hne1, hne2⟩
  | str s => exact ⟨'"', _, rfl, rfl, by decide, by decide⟩
  | arr xs => exact ⟨'[', _, rfl, rfl, by decide, by decide⟩
  | obj fs => exact ⟨'\x7b', _, rfl, rfl, by decide, by decide⟩

theorem hasKey_eq_false_iff (m : List (String × JsonValue)) (k : String) :
    hasKey m k = false ↔ ∀ q ∈ m, q.1 ≠ k := by
  induction m with
  | nil => simp [hasKey]
  | cons p ps ih =>
    obtain ⟨k1, v1⟩ := p
    simp [hasKey, ih]

theorem hasKey_append (m1 m2 : List (String × JsonValue)) (k : String) :
    hasKey (m1 ++ m2) k = (hasKey m1 k || hasKey m2 k) := by
  induction m1 with
  | nil => simp [hasKey]
  | cons p ps ih =>
    obtain ⟨k1, v1⟩ := p
    simp [hasKey, ih, Bool.or_assoc]

theorem insertPair_not_has (m : List (String × JsonValue)) (k : String)
    (v : JsonValue) (h : hasKey m k = false) :
    insertPair m k v = m ++ [(k, v)] := by
  induction m with
  | nil => rfl
  | cons p ps ih =>
    obtain ⟨k1, v1⟩ := p
    simp only [hasKey, Bool.or_eq_false_iff] at h
    unfold insertPair
    rw [if_neg (by simpa using h.1), ih h.2]
    rfl

mutual

/-- Fuel sufficient for `parseValue` to read back one serialized
value. -/
def jneedV : JsonValue → Nat
  | JsonValue.null => 1
  | JsonValue.bool _ => 1
  | JsonValue.num _ => 1
  | JsonValue.str _ => 1
  | JsonValue.arr [] => 1
  | JsonValue.arr (x :: xs) => 1 + jneedE (x :: xs)
  | JsonValue.obj [] => 1
  | JsonValue.obj (f :: fs) => 1 + jneedF (f :: fs)

/-- Fuel sufficient for `parseElems` over the serialized elements. -/
def jneedE : List JsonValue → Nat
  | [] => 0
  | x :: xs => 1 + max (jneedV x) (jneedE xs)

/-- Fuel sufficient for `parseFields` over the serialized members. -/
def jneedF : List (String × JsonValue) → Nat
  | [] => 0
  | (_, v) :: fs => 1 + max (jneedV v) (jneedF fs)

end

/-- Everything the round-trip argument needs of one value: its
serialization parses back exactly, under any whitespace prefix and any
non-digit-leading continuation, with any sufficient fuel. -/
def SerOk (ea : Bool) (v : JsonValue) : Prop :=
  ∀ fuel pre rest, jneedV v ≤ fuel → wfValue v = true → wsOnly pre →
    headNotDigit rest = true →
    parseValue fuel (pre ++ (serValue ea v ++ rest)) = some (v, rest)

theorem jneedV_pos (v : JsonValue) : 1 ≤ jneedV v := by
  cases v with
  | null => simp [jneedV]
  | bool b => simp [jneedV]
  | num n => simp [jneedV]
  | str s => simp [jneedV]
  | arr xs => cases xs <;> simp [jneedV]
  | obj fs => cases fs <;> simp [jneedV]

theorem serOk_null (ea : Bool) : SerOk ea JsonValue.null := by
  intro fuel pre rest hfuel hwf hpre hrest
  have h1 : 1 ≤ fuel := hfuel
  obtain ⟨f, rfl⟩ : ∃ f, fuel = Nat.succ f := ⟨fuel - 1, by omega⟩
  rw [parseValue, skipWsL_append_wsOnly pre _ hpre]
  rw [show serValue ea JsonValue.null ++ rest =
    'n' :: 'u' :: 'l' :: 'l' :: rest from rfl]
  rw [skipWsL_cons_not _ _ (by decide)]
  simp

theorem serOk_bool (ea : Bool) (b : Bool) : SerOk ea (JsonValue.bool b) := by
  intro fuel pre rest hfuel hwf hpre hrest
  have h1 : 1 ≤ fuel := hfuel
  obtain ⟨f, rfl⟩ : ∃ f, fuel = Nat.succ f := ⟨fuel - 1, by omega⟩
  rw [parseValue, skipWsL_append_wsOnly pre _ hpre]
  cases b with
  | true =>
    rw [show serValue ea (JsonValue.bool true) ++ rest =
      't' :: 'r' :: 'u' :: 'e' :: rest from rfl]
    rw [skipWsL_cons_not _ _ (by decide)]
    simp
  | false =>
    rw [show serValue ea (JsonValue.bool false) ++ rest =
      'f' :: 'a' :: 'l' :: 's' :: 'e' :: rest from rfl]
    rw [skipWsL_cons_not _ _ (by decide)]
    simp

theorem serOk_str (ea : Bool) (s : String) : SerOk ea (JsonValue.str s) := by
  intro fuel pre rest hfuel hwf hpre hrest
  have h1 : 1 ≤ fuel := hfuel
  obtain ⟨f, rfl⟩ : ∃ f, fuel = Nat.succ f := ⟨fuel - 1, by omega⟩
  rw [parseValue, skipWsL_append_wsOnly pre _ hpre]
  rw [show serValue ea (JsonValue.str s) ++ rest =
    '"' :: (escStringChars ea s.data ++ ('"' :: rest)) by
      simp [serValue, serString, List.append_assoc]]
  rw [skipWsL_cons_not _ _ (by decide)]
  simp [parseStringTail_ser, string_mk_data]

theorem parseValue_digits (f : Nat) (n : Nat) (rest : List Char)
    (hrest : headNotDigit rest = true) :
    parseValue (Nat.succ f) (natToDigits n ++ rest) =
      some (JsonValue.num (n : Int), rest) := by
  cases hd : natToDigits n with
  | nil => exact absurd hd (natToDigits_ne_nil n)
  | cons d ds =>
    have hdig : isDigitChar d = true :=
      natToDigits_all_digits n d (by rw [hd]; simp)
    obtain ⟨hws, _, hn, ht, hf, hq, hlb, hob, hm, _⟩ := digit_props d hdig
    rw [parseValue, List.cons_append, skipWsL_cons_not _ _ hws]
    simp only [if_neg hn, if_neg ht, if_neg hf, if_neg hq, if_neg hlb,
      if_neg hob, if_neg hm, if_pos hdig]
    rw [← List.cons_append, ← hd, parseNat_natToDigits n rest hrest]

theorem serOk_num (ea : Bool) (n : Int) : SerOk ea (JsonValue.num n) := by
  intro fuel pre rest hfuel hwf hpre hrest
  have h1 : 1 ≤ fuel := hfuel
  obtain ⟨f, rfl⟩ : ∃ f, fuel = Nat.succ f := ⟨fuel - 1, by omega⟩
  rw [parseValue_skipWs, skipWsL_append_wsOnly pre _ hpre]
  by_cases hneg : n < 0
  · rw [show serValue ea (JsonValue.num n) ++ rest =
      '-' :: (natToDigits (-n).toNat ++ rest) by
        simp [serValue, intToChars, hneg]]
    rw [← parseValue_skipWs]
    rw [parseValue, skipWsL_cons_not _ _ (by decide)]
    simp only [if_neg (by decide : ¬ ('-' : Char) = 'n'),
      if_neg (by decide : ¬ ('-' : Char) = 't'),
      if_neg (by decide : ¬ ('-' : Char) = 'f'),
      if_neg (by decide : ¬ ('-' : Char) = '"'),
      if_neg (by decide : ¬ ('-' : Char) = '['),
      if_neg (by decide : ¬ ('-' : Char) = '\x7b'),
      if_pos (rfl : ('-' : Char) = '-')]
    rw [parseNat_natToDigits (-n).toNat rest hrest]
    simp only [if_true, Option.some.injEq, Prod.mk.injEq,
      JsonValue.num.injEq, and_true]
    omega
  · rw [show serValue ea (JsonValue.num n) ++ rest =
      natToDigits n.toNat ++ rest by
        simp [serValue, intToChars, hneg]]
    rw [← parseValue_skipWs, parseValue_digits f n.toNat rest hrest]
    simp only [Option.some.injEq, Prod.mk.injEq, JsonValue.num.injEq,
      and_true]
    omega

theorem parse_serElems_aux (ea : Bool) :
    ∀ (xs : List JsonValue) (x : JsonValue),
      (∀ y ∈ x :: xs, SerOk ea y) →
      ∀ fuel acc pre rest, jneedE (x :: xs) ≤ fuel →
        wfElems (x :: xs) = true → wsOnly pre →
        parseElems fuel acc (pre ++ (serElems ea (x :: xs) ++ rest)) =
          some (JsonValue.arr (acc ++ (x :: xs)), rest) := by
  intro xs
  induction xs with
  | nil =>
    intro x hmem fuel acc pre rest hfuel hwf hpre
    have h1 : 1 ≤ fuel := le_trans (by simp [jneedE]) hfuel
    obtain ⟨f, rfl⟩ : ∃ f, fuel = Nat.succ f := ⟨fuel - 1, by omega⟩
    rw [parseElems]
    rw [show pre ++ (serElems ea [x] ++ rest) =
      pre ++ (serValue ea x ++ (']' :: rest)) by
        simp [serElems, List.append_assoc]]
    rw [hmem x (by simp) f pre (']' :: rest)
      (by simp [jneedE] at hfuel; omega)
      (by simp [wfElems, Bool.and_eq_true] at hwf; exact hwf)
      hpre rfl]
    simp [skipWsL_cons_not ']' rest (by decide)]
  | cons y ys ih =>
    intro x hmem fuel acc pre rest hfuel hwf hpre
    have h1 : 1 ≤ fuel := le_trans (by simp [jneedE]) hfuel
    obtain ⟨f, rfl⟩ : ∃ f, fuel = Nat.succ f := ⟨fuel - 1, by omega⟩
    rw [parseElems]
    rw [show pre ++ (serElems ea (x :: y :: ys) ++ rest) =
      pre ++ (serValue ea x ++
        (',' :: ' ' :: (serElems ea (y :: ys) ++ rest))) by
        simp [serElems, List.append_assoc]]
    have hwf2 : wfValue x = true ∧ wfElems (y :: ys) = true := by
      simp only [wfElems, Bool.and_eq_true] at hwf ⊢
      exact hwf
    rw [hmem x (by simp) f pre
      (',' :: ' ' :: (serElems ea (y :: ys) ++ rest))
      (by simp [jneedE] at hfuel; omega) hwf2.1 hpre rfl]
    have hih := ih y (fun z hz => hmem z (List.mem_cons_of_mem x hz)) f
      (acc ++ [x]) [' '] rest (by simp only [jneedE] at hfuel ⊢; omega)
      hwf2.2 wsOnly_space
    simp only [List.singleton_append] at hih
    simp [skipWsL_cons_not ',' _ (by decide), hih, List.append_assoc]

theorem parse_serFields_aux (ea : Bool) :
    ∀ (fs : List (String × JsonValue)) (p : String × JsonValue),
      (∀ q ∈ p :: fs, SerOk ea q.2) →
      ∀ fuel acc rest, jneedF (p :: fs) ≤ fuel →
        wfFields (p :: fs) = true →
        (∀ q ∈ p :: fs, hasKey acc q.1 = false) →
        parseFields fuel acc (serFields ea (p :: fs) ++ rest) =
          some (JsonValue.obj (acc ++ (p :: fs)), rest) := by
  intro fs
  induction fs with
  | nil =>
    intro p hmem fuel acc rest hfuel hwf hacc
    obtain ⟨k, v⟩ := p
    have h1 : 1 ≤ fuel := le_trans (by simp [jneedF]) hfuel
    obtain ⟨f, rfl⟩ : ∃ f, fuel = Nat.succ f := ⟨fuel - 1, by omega⟩
    rw [show serFields ea [(k, v)] ++ rest =
      '"' :: (escStringChars ea k.data ++
        ('"' :: (':' :: ' ' :: (serValue ea v ++ ('\x7d' :: rest))))) by
        simp [serFields, serString, List.append_assoc]]
    rw [parseFields]
    have hv := hmem (k, v) (by simp) f [' '] ('\x7d' :: rest)
      (by show jneedV v ≤ f; simp [jneedF] at hfuel; omega)
      (by simp [wfFields, Bool.and_eq_true] at hwf; exact hwf.2)
      wsOnly_space rfl
    simp only [List.singleton_append] at hv
    have hsk1 : skipWsL (':' :: ' ' :: (serValue ea v ++ ('\x7d' :: rest))) =
        ':' :: ' ' :: (serValue ea v ++ ('\x7d' :: rest)) :=
      skipWsL_cons_not _ _ (by decide)
    have hsk2 : skipWsL ('\x7d' :: rest) = '\x7d' :: rest :=
      skipWsL_cons_not _ _ (by decide)
    simp only [parseStringTail_ser, hsk1, hv, hsk2, string_mk_data]
    rw [insertPair_not_has acc k v (hacc (k, v) (by simp))]
  | cons q qs ih =>
    intro p hmem fuel acc rest hfuel hwf hacc
    obtain ⟨k, v⟩ := p
    obtain ⟨k2, v2⟩ := q
    have h1 : 1 ≤ fuel := le_trans (by simp [jneedF]) hfuel
    obtain ⟨f, rfl⟩ : ∃ f, fuel = Nat.succ f := ⟨fuel - 1, by omega⟩
    rw [show serFields ea ((k, v) :: (k2, v2) :: qs) ++ rest =
      '"' :: (escStringChars ea k.data ++
        ('"' :: (':' :: ' ' :: (serValue ea v ++
          (',' :: ' ' :: (serFields ea ((k2, v2) :: qs) ++ rest)))))) by
        simp [serFields, serString, List.append_assoc]]
    rw [parseFields]
    simp only [wfFields, Bool.and_eq_true] at hwf
    have hv := hmem (k, v) (by simp) f [' ']
      (',' :: ' ' :: (serFields ea ((k2, v2) :: qs) ++ rest))
      (by show jneedV v ≤ f; simp [jneedF] at hfuel; omega)
      hwf.1.2 wsOnly_space rfl
    simp only [List.singleton_append] at hv
    have hsk1 : skipWsL (':' :: ' ' :: (serValue ea v ++
        (',' :: ' ' :: (serFields ea ((k2, v2) :: qs) ++ rest)))) =
        ':' :: ' ' :: (serValue ea v ++
        (',' :: ' ' :: (serFields ea ((k2, v2) :: qs) ++ rest))) :=
      skipWsL_cons_not _ _ (by decide)
    have hsk2 : skipWsL (',' :: ' ' ::
        (serFields ea ((k2, v2) :: qs) ++ rest)) =
        ',' :: ' ' :: (serFields ea ((k2, v2) :: qs) ++ rest) :=
      skipWsL_cons_not _ _ (by decide)
    have hsk3 : skipWsL (' ' :: (serFields ea ((k2, v2) :: qs) ++ rest)) =
        serFields ea ((k2, v2) :: qs) ++ rest := by
      rw [show (' ' :: (serFields ea ((k2, v2) :: qs) ++ rest)) =
        [' '] ++ (serFields ea ((k2, v2) :: qs) ++ rest) from rfl,
        skipWsL_append_wsOnly _ _ wsOnly_space]
      rw [show serFields ea ((k2, v2) :: qs) ++ rest =
        '"' :: ((escStringChars ea k2.data ++ ['"']) ++
          ((match qs with
            | [] => [':', ' '] ++ serValue ea v2 ++ ['\x7d']
            | _ => [':', ' '] ++ serValue ea v2 ++ [',', ' '] ++
                serFields ea qs) ++ rest)) from by
          cases qs <;> simp [serFields, serString, List.append_assoc]]
      exact skipWsL_cons_not _ _ (by decide)
    have hkne : ∀ r ∈ (k2, v2) :: qs, r.1 ≠ k :=
      (hasKey_eq_false_iff ((k2, v2) :: qs) k).mp (by
        have := hwf.1.1
        simp only [Bool.not_eq_true'] at this
        exact this)
    have hins : insertPair acc k v = acc ++ [(k, v)] :=
      insertPair_not_has acc k v (hacc (k, v) (by simp))
    have hih := ih (k2, v2)
      (fun z hz => hmem z (List.mem_cons_of_mem (k, v) hz)) f
      (acc ++ [(k, v)]) rest
      (by simp only [jneedF] at hfuel ⊢; omega)
      (by
        simp only [wfFields, Bool.and_eq_true]
        exact hwf.2)
      (by
        intro r hr
        rw [hasKey_append]
        simp only [hasKey, Bool.or_eq_false_iff]
        refine ⟨hacc r (List.mem_cons_of_mem (k, v) hr), ?_, trivial⟩
        simp only [beq_eq_false_iff_ne]
        exact fun he => hkne r hr he.symm)
    simp only [parseStringTail_ser, hsk1, hv, hsk2, string_mk_data, hins,
      hsk3, hih]
    simp

theorem serElems_cons_decomp (ea : Bool) (x : JsonValue)
    (xs : List JsonValue) (rest : List Char) :
    ∃ G, serElems ea (x :: xs) ++ rest = serValue ea x ++ G := by
  cases xs with
  | nil => exact ⟨']' :: rest, by simp [serElems, List.append_assoc]⟩
  | cons y ys =>
    exact ⟨',' :: ' ' :: (serElems ea (y :: ys) ++ rest),
      by simp [serElems, List.append_assoc]⟩

theorem serFields_cons_head (ea : Bool) (p : String × JsonValue)
    (fs : List (String × JsonValue)) (rest : List Char) :
    ∃ T, serFields ea (p :: fs) ++ rest = '"' :: T := by
  obtain ⟨k, v⟩ := p
  cases fs with
  | nil =>
    exact ⟨escStringChars ea k.data ++
      ('"' :: (':' :: ' ' :: (serValue ea v ++ ('\x7d' :: rest)))),
      by simp [serFields, serString, List.append_assoc]⟩
  | cons q qs =>
    exact ⟨escStringChars ea k.data ++
      ('"' :: (':' :: ' ' :: (serValue ea v ++
        (',' :: ' ' :: (serFields ea (q :: qs) ++ rest))))),
      by simp [serFields, serString, List.append_assoc]⟩

theorem serOk_all (ea : Bool) : ∀ v, SerOk ea v := by
  intro v
  induction v using JsonValue.ind with
  | h0 => exact serOk_null ea
  | h1 b => exact serOk_bool ea b
  | h2 n => exact serOk_num ea n
  | h3 s => exact serOk_str ea s
  | h4 xs ihx =>
    intro fuel pre rest hfuel hwf hpre hrest
    have h1 : 1 ≤ fuel := le_trans (jneedV_pos _) hfuel
    obtain ⟨f, rfl⟩ : ∃ f, fuel = Nat.succ f := ⟨fuel - 1, by omega⟩
    cases xs with
    | nil =>
      rw [parseValue, skipWsL_append_wsOnly pre _ hpre]
      rw [show serValue ea (JsonValue.arr []) ++ rest =
        '[' :: (']' :: rest) from rfl]
      rw [skipWsL_cons_not _ _ (by decide)]
      simp [skipWsL_cons_not ']' rest (by decide)]
    | cons x xs2 =>
      rw [parseValue, skipWsL_append_wsOnly pre _ hpre]
      rw [show serValue ea (JsonValue.arr (x :: xs2)) ++ rest =
        '[' :: (serElems ea (x :: xs2) ++ rest) from rfl]
      rw [skipWsL_cons_not _ _ (by decide)]
      obtain ⟨G, hG⟩ := serElems_cons_decomp ea x xs2 rest
      obtain ⟨d, ds, hd, hdws, hdrb, _⟩ := serValue_head ea x
      have hskip : skipWsL (serElems ea (x :: xs2) ++ rest) =
          serElems ea (x :: xs2) ++ rest := by
        conv_lhs => rw [hG, hd, List.cons_append]
        rw [skipWsL_cons_not _ _ hdws, ← List.cons_append, ← hd, ← hG]
      simp only [if_neg (by decide : ¬ ('[' : Char) = 'n'),
        if_neg (by decide : ¬ ('[' : Char) = 't'),
        if_neg (by decide : ¬ ('[' : Char) = 'f'),
        if_neg (by decide : ¬ ('[' : Char) = '"'),
        eq_self_iff_true, if_true]
      rw [hskip]
      split
      · rename_i r heq
        rw [hG, hd, List.cons_append] at heq
        simp only [List.cons.injEq] at heq
        exact absurd heq.1 hdrb
      · have := parse_serElems_aux ea xs2 x (fun y hy => ihx y hy) f [] []
          rest (by simp only [jneedV] at hfuel; omega) hwf wsOnly_nil
        simpa using this
  | h5 fs ihf =>
    intro fuel pre rest hfuel hwf hpre hrest
    have h1 : 1 ≤ fuel := le_trans (jneedV_pos _) hfuel
    obtain ⟨f, rfl⟩ : ∃ f, fuel = Nat.succ f := ⟨fuel - 1, by omega⟩
    cases fs with
    | nil =>
      rw [parseValue, skipWsL_append_wsOnly pre _ hpre]
      rw [show serValue ea (JsonValue.obj []) ++ rest =
        '\x7b' :: ('\x7d' :: rest) from rfl]
      rw [skipWsL_cons_not _ _ (by decide)]
      simp [skipWsL_cons_not '\x7d' rest (by decide)]
    | cons p fs2 =>
      rw [parseValue, skipWsL_append_wsOnly pre _ hpre]
      rw [show serValue ea (JsonValue.obj (p :: fs2)) ++ rest =
        '\x7b' :: (serFields ea (p :: fs2) ++ rest) from rfl]
      rw [skipWsL_cons_not _ _ (by decide)]
      obtain ⟨T, hT⟩ := serFields_cons_head ea p fs2 rest
      have hskip : skipWsL (serFields ea (p :: fs2) ++ rest) =
          serFields ea (p :: fs2) ++ rest := by
        conv_lhs => rw [hT]
        rw [skipWsL_cons_not _ _ (by decide), ← hT]
      simp only [if_neg (by decide : ¬ ('\x7b' : Char) = 'n'),
        if_neg (by decide : ¬ ('\x7b' : Char) = 't'),
        if_neg (by decide : ¬ ('\x7b' : Char) = 'f'),
        if_neg (by decide : ¬ ('\x7b' : Char) = '"'),
        if_neg (by decide : ¬ ('\x7b' : Char) = '['),
        eq_self_iff_true, if_true]
      rw [hskip]
      split
      · rename_i r heq
        rw [hT] at heq
        simp only [List.cons.injEq] at heq
        exact absurd heq.1.symm (by decide)
      · have := parse_serFields_aux ea fs2 p (fun q hq => ihf q hq) f []
          rest (by simp only [jneedV] at hfuel; omega) hwf
          (fun q _ => rfl)
        simpa using this

theorem serValue_length_pos (ea : Bool) (v : JsonValue) :
    1 ≤ (serValue ea v).length := by
  obtain ⟨d, ds, hd, _⟩ := serValue_head ea v
  rw [hd]
  simp

theorem jneedE_le_len (ea : Bool) :
    ∀ (ys : List JsonValue) (y : JsonValue),
      (∀ z ∈ y :: ys, jneedV z ≤ (serValue ea z).length) →
      jneedE (y :: ys) ≤ (serElems ea (y :: ys)).length := by
  intro ys
  induction ys with
  | nil =>
    intro y h
    have h1 := h y (by simp)
    simp only [jneedE, serElems, List.length_append, List.length_cons,
      List.length_nil]
    omega
  | cons z zs ih =>
    intro y h
    have h1 := h y (by simp)
    have h2 := ih z (fun w hw => h w (List.mem_cons_of_mem y hw))
    simp only [jneedE, serElems, List.length_append, List.length_cons,
      List.length_nil] at h2 ⊢
    omega

theorem jneedF_le_len (ea : Bool) :
    ∀ (qs : List (String × JsonValue)) (p : String × JsonValue),
      (∀ r ∈ p :: qs, jneedV r.2 ≤ (serValue ea r.2).length) →
      jneedF (p :: qs) ≤ (serFields ea (p :: qs)).length := by
  intro qs
  induction qs with
  | nil =>
    intro p h
    obtain ⟨k, v⟩ := p
    have h1 := h (k, v) (by simp)
    simp only [jneedF, serFields, serString, List.length_append,
      List.length_cons, List.length_nil] at h1 ⊢
    omega
  | cons q qs2 ih =>
    intro p h
    obtain ⟨k, v⟩ := p
    have h1 := h (k, v) (by simp)
    have h2 := ih q (fun w hw => h w (List.mem_cons_of_mem (k, v) hw))
    obtain ⟨k2, v2⟩ := q
    simp only [jneedF, serFields, serString, List.length_append,
      List.length_cons, List.length_nil] at h1 h2 ⊢
    omega

theorem jneed_le_len (ea : Bool) :
    ∀ v, jneedV v ≤ (serValue ea v).length := by
  intro v
  induction v using JsonValue.ind with
  | h0 => simp [jneedV, serValue]
  | h1 b => cases b <;> simp [jneedV, serValue]
  | h2 n =>
    have := serValue_length_pos ea (JsonValue.num n)
    simpa [jneedV] using this
  | h3 s => simp [jneedV, serValue, serString]
  | h4 xs ih =>
    cases xs with
    | nil => simp [jneedV, serValue, serElems]
    | cons x xs2 =>
      have := jneedE_le_len ea xs2 x ih
      simp only [jneedV, serValue, List.length_cons]
      omega
  | h5 fs ih =>
    cases fs with
    | nil => simp [jneedV, serValue, serFields]
    | cons p fs2 =>
      have := jneedF_le_len ea fs2 p ih
      simp only [jneedV, serValue, List.length_cons]
      omega

theorem parseJson_serValue (ea : Bool) (v : JsonValue)
    (hwf : wfValue v = true) :
    parseJson (String.mk (serValue ea v)) = some v := by
  unfold parseJson
  rw [show (String.mk (serValue ea v)).data = serValue ea v from rfl]
  have hser := serOk_all ea v (2 * (serValue ea v).length + 2) [] []
    (by have := jneed_le_len ea v; omega) hwf wsOnly_nil rfl
  simp only [List.nil_append, List.append_nil] at hser
  rw [hser]
  simp [skipWsL]

theorem wfElems_append (l1 l2 : List JsonValue) :
    wfElems (l1 ++ l2) = (wfElems l1 && wfElems l2) := by
  induction l1 with
  | nil => simp [wfElems]
  | cons x xs ih => simp [wfElems, ih, Bool.and_assoc]

theorem hasKey_insertPair (m : List (String × JsonValue)) (k k1 : String)
    (v : JsonValue) :
    hasKey (insertPair m k v) k1 = (hasKey m k1 || k == k1) := by
  induction m with
  | nil => simp [insertPair, hasKey]
  | cons p ps ih =>
    obtain ⟨k2, v2⟩ := p
    by_cases h : k2 = k
    · subst h
      simp [insertPair, hasKey]
      exact fun h2 => Or.inl h2
    · simp only [insertPair, if_neg h, hasKey, ih, Bool.or_assoc]

theorem wfFields_insertPair (m : List (String × JsonValue)) (k : String)
    (v : JsonValue) (hm : wfFields m = true) (hv : wfValue v = true) :
    wfFields (insertPair m k v) = true := by
  induction m with
  | nil => simp [insertPair, wfFields, hasKey, hv]
  | cons p ps ih =>
    obtain ⟨k2, v2⟩ := p
    simp only [wfFields, Bool.and_eq_true, Bool.not_eq_true'] at hm
    by_cases h : k2 = k
    · subst h
      simp only [insertPair, if_pos rfl, wfFields, Bool.and_eq_true,
        Bool.not_eq_true']
      exact ⟨⟨hm.1.1, hv⟩, hm.2⟩
    · simp only [insertPair, if_neg h, wfFields, Bool.and_eq_true,
        Bool.not_eq_true', hasKey_insertPair]
      refine ⟨⟨?_, hm.1.2⟩, ih hm.2⟩
      simp only [Bool.or_eq_false_iff]
      exact ⟨hm.1.1, by
        simp only [beq_eq_false_iff_ne]
        exact fun he => h he.symm⟩

theorem parse_wf : ∀ fuel,
    (∀ cs v rest, parseValue fuel cs = some (v, rest) →
      wfValue v = true) ∧
    (∀ acc cs v rest, parseElems fuel acc cs = some (v, rest) →
      wfElems acc = true → wfValue v = true) ∧
    (∀ acc cs v rest, parseFields fuel acc cs = some (v, rest) →
      wfFields acc = true → wfValue v = true) := by
  intro fuel
  induction fuel with
  | zero =>
    refine ⟨?_, ?_, ?_⟩
    · intro cs v rest h
      simp [parseValue] at h
    · intro acc cs v rest h
      simp [parseElems] at h
    · intro acc cs v rest h
      simp [parseFields] at h
  | succ fuel ih =>
    obtain ⟨ihV, ihE, ihF⟩ := ih
    refine ⟨?_, ?_, ?_⟩
    · intro cs v rest h
      rw [parseValue] at h
      split at h
      · exact absurd h (by simp)
      · repeat' split at h
        all_goals
          first
          | (simp only [Option.some.injEq, Prod.mk.injEq] at h
             cases h.1
             rfl)
          | exact ihE [] _ v rest h rfl
          | exact ihF [] _ v rest h rfl
          | simp at h
    · intro acc cs v rest h hacc
      rw [parseElems] at h
      split at h
      · exact absurd h (by simp)
      · rename_i v1 r1 heq
        have hv1 := ihV cs v1 r1 heq
        have hacc2 : wfElems (acc ++ [v1]) = true := by
          rw [wfElems_append]
          simp [wfElems, hacc, hv1]
        split at h
        · exact ihE (acc ++ [v1]) _ v rest h hacc2
        · simp only [Option.some.injEq, Prod.mk.injEq] at h
          cases h.1
          exact hacc2
        · exact absurd h (by simp)
    · intro acc cs v rest h hacc
      cases cs with
      | nil =>
        rw [show parseFields (Nat.succ fuel) acc [] = none from rfl] at h
        exact absurd h (by simp)
      | cons c cs2 =>
        by_cases hc : c = '"'
        swap
        · simp [parseFields, hc] at h
        subst hc
        rw [parseFields] at h
        split at h
        · exact absurd h (by simp)
        · rename_i kdata r1 heqk
          split at h
          · rename_i r2 hsk
            split at h
            · exact absurd h (by simp)
            · rename_i v1 r3 heqv
              have hv1 := ihV r2 v1 r3 heqv
              have hacc2 : wfFields (insertPair acc (String.mk kdata) v1) =
                  true := wfFields_insertPair acc _ v1 hacc hv1
              split at h
              · exact ihF _ _ v rest h hacc2
              · simp only [Option.some.injEq, Prod.mk.injEq] at h
                cases h.1
                exact hacc2
              · exact absurd h (by simp)
          · exact absurd h (by simp)

theorem parseJson_wf (t : String) (v : JsonValue)
    (h : parseJson t = some v) : wfValue v = true := by
  unfold parseJson at h
  split at h
  · exact absurd h (by simp)
  · rename_i v1 r1 heq
    split at h
    · simp only [Option.some.injEq] at h
      cases h
      exact (parse_wf _).1 _ _ _ heq
    · exact absurd h (by simp)

theorem parseToObj_wf (t : String) (fields : List (String × JsonValue))
    (h : parseToObj t = some fields) : wfFields fields = true := by
  unfold parseToObj at h
  split at h
  · rename_i f1 heq
    simp only [Option.some.injEq] at h
    cases h
    exact parseJson_wf t _ heq
  · exact absurd h (by simp)

/-- C8: constructing from any valid JSON object text and serializing
back with `to_json` yields text that parses to exactly the mapping the
original text parsed to. -/
theorem to_json_roundtrip (cls : String) (t : String)
    (fields : List (String × JsonValue)) (h : parseToObj t = some fields) :
    SparkData.construct cls (ConstructInput.text t) =
        Except.ok (SparkData.mk cls fields) ∧
      parseJson ((SparkData.mk cls fields).to_json) =
        some (JsonValue.obj fields) := by
  constructor
  · simp only [SparkData.construct, json_dict, h]
  · exact parseJson_serValue true (JsonValue.obj fields)
      (parseToObj_wf t fields h)

theorem to_json_roundtrip_witness :
    SparkData.construct "Webhook"
        (ConstructInput.text
          "\x7b\"id\": \"w1\", \"n\": [1, -2, null], \"o\": \x7b\"x\": true\x7d\x7d") =
        Except.ok (SparkData.mk "Webhook"
          [("id", JsonValue.str "w1"),
           ("n", JsonValue.arr
             [JsonValue.num 1, JsonValue.num (-2), JsonValue.null]),
           ("o", JsonValue.obj [("x", JsonValue.bool true)])]) ∧
      parseJson ((SparkData.mk "Webhook"
          [("id", JsonValue.str "w1"),
           ("n", JsonValue.arr
             [JsonValue.num 1, JsonValue.num (-2), JsonValue.null]),
           ("o", JsonValue.obj [("x", JsonValue.bool true)])]).to_json) =
        some (JsonValue.obj
          [("id", JsonValue.str "w1"),
           ("n", JsonValue.arr
             [JsonValue.num 1, JsonValue.num (-2), JsonValue.null]),
           ("o", JsonValue.obj [("x", JsonValue.bool true)])]) :=
  to_json_roundtrip "Webhook"
    "\x7b\"id\": \"w1\", \"n\": [1, -2, null], \"o\": \x7b\"x\": true\x7d\x7d"
    [("id", JsonValue.str "w1"),
     ("n", JsonValue.arr
       [JsonValue.num 1, JsonValue.num (-2), JsonValue.null]),
     ("o", JsonValue.obj [("x", JsonValue.bool true)])]
    (by decide)

theorem pyReprEscChars_length_ge (q : Char) (s : List Char) :
    s.length ≤ (pyReprEscChars q s).length := by
  induction s with
  | nil => simp [pyReprEscChars]
  | cons c cs ih =>
    have hne : 1 ≤ (pyReprEscChar q c).length := by
      unfold pyReprEscChar
      split_ifs <;> simp
    simp only [pyReprEscChars, List.length_append, List.length_cons]
    omega

theorem pyLit_roundtrip_body (q : Char) (hq : q = '\x27' ∨ q = '"')
    (s : List Char) :
    ∀ fuel, s.length < fuel →
      pyLitBodyF fuel q (pyReprEscChars q s ++ [q]) = some s := by
  induction s with
  | nil =>
    intro fuel h
    match fuel with
    | Nat.succ f => simp [pyReprEscChars, pyLitBodyF]
  | cons c cs ih =>
    intro fuel h
    match fuel with
    | Nat.succ f =>
      have hih := ih f (by simp at h; omega)
      rw [show pyReprEscChars q (c :: cs) ++ [q] =
        pyReprEscChar q c ++ (pyReprEscChars q cs ++ [q]) by
          simp [pyReprEscChars, List.append_assoc]]
      rcases hq with rfl | rfl <;>
      · by_cases h1 : c = '\\'
        · subst h1
          simp [pyReprEscChar, pyLitBodyF, hih]
        · by_cases h2 : c = '\x27'
          · subst h2
            simp [pyReprEscChar, pyLitBodyF, hih]
          · by_cases h2b : c = '"'
            · subst h2b
              simp [pyReprEscChar, pyLitBodyF, hih]
            · by_cases h3 : c = '\x0a'
              · subst h3
                simp [pyReprEscChar, pyLitBodyF, hih]
              · by_cases h4 : c = '\x0d'
                · subst h4
                  simp [pyReprEscChar, pyLitBodyF, hih]
                · by_cases h5 : c = '\x09'
                  · subst h5
                    simp [pyReprEscChar, pyLitBodyF, hih]
                  · by_cases h6 :
                      (c.toNat < 32 || decide (c.toNat = 127)) = true
                    · have h6n : c.toNat < 32 ∨ c.toNat = 127 := by
                        simpa using h6
                      rw [show pyReprEscChar _ c =
                        ['\\', 'x', hexDigitChar (c.toNat / 16),
                         hexDigitChar (c.toNat % 16)] by
                          unfold pyReprEscChar
                          rw [if_neg h1, if_neg (by simp [h2, h2b]),
                            if_neg h3, if_neg h4, if_neg h5, if_pos h6]]
                      rw [pyLitBodyF.eq_def]
                      simp only [List.cons_append, List.nil_append,
                        Char.reduceEq, reduceIte]
                      rw [hexVal_hexDigitChar (c.toNat / 16) (by omega),
                        hexVal_hexDigitChar (c.toNat % 16) (by omega)]
                      simp only [Option.map_eq_map]
                      rw [show 16 * (c.toNat / 16) + c.toNat % 16 =
                        c.toNat by omega, Char.ofNat_toNat, hih]
                      rfl
                    · rw [show pyReprEscChar _ c = [c] by
                        unfold pyReprEscChar
                        rw [if_neg h1, if_neg (by simp [h2, h2b]),
                          if_neg h3, if_neg h4, if_neg h5, if_neg h6]]
                      rw [List.singleton_append, pyLitBodyF.eq_def]
                      simp only []
                      rw [if_neg (by simp [h2, h2b]), if_neg h1, hih]
                      rfl

theorem pyLitEval_pyStrRepr (s : String) :
    pyLitEval (pyStrRepr s) = some s := by
  unfold pyStrRepr pyLitEval
  set q := if s.data.contains '\x27' && !s.data.contains '"' then ('"' : Char)
    else '\x27' with hq
  have hqor : q = '\x27' ∨ q = '"' := by
    rw [hq]
    split_ifs <;> simp
  rw [show (String.mk (q :: (pyReprEscChars q s.data ++ [q]))).data =
    q :: (pyReprEscChars q s.data ++ [q]) from rfl]
  simp only []
  rw [if_pos (by rcases hqor with h | h <;> simp [h])]
  rw [pyLit_roundtrip_body q hqor s.data _ (by
    have := pyReprEscChars_length_ge q s.data
    simp only [List.length_append, List.length_cons, List.length_nil]
    omega)]
  simp [string_mk_data]

/-- C9: the debug form is the constructor-call string
`ClassName(repr(json_text))`; the enclosed JSON text (built with
`ensure_ascii=False`) evaluates back, as a Python string literal, to
itself; constructing from it reconstructs an object with an equal
internal mapping; and non-ASCII characters are kept literally by the
`ensure_ascii=False` escaping. -/
theorem repr_roundtrip_and_nonascii (o : SparkData) (c : Char)
    (hwf : wfFields o._json_data = true) (hc : 127 < c.toNat) :
    SparkData.repr o =
        o.className ++ "(" ++ pyStrRepr o.reprJsonText ++ ")" ∧
      pyLitEval (pyStrRepr o.reprJsonText) = some o.reprJsonText ∧
      SparkData.construct o.className
        (ConstructInput.text o.reprJsonText) = Except.ok o ∧
      jsonEscapeChar false c = [c] := by
  refine ⟨rfl, pyLitEval_pyStrRepr _, ?_, ?_⟩
  · have hparse : parseJson (String.mk
        (serValue false (JsonValue.obj o._json_data))) =
        some (JsonValue.obj o._json_data) :=
      parseJson_serValue false _ (by rw [wfValue]; exact hwf)
    simp only [SparkData.construct, json_dict, parseToObj,
      SparkData.reprJsonText, hparse]
  · unfold jsonEscapeChar
    rw [if_neg (fun h => by subst h; exact absurd hc (by decide)),
      if_neg (fun h => by subst h; exact absurd hc (by decide)),
      if_neg (fun h => by subst h; exact absurd hc (by decide)),
      if_neg (fun h => by subst h; exact absurd hc (by decide)),
      if_neg (fun h => by subst h; exact absurd hc (by decide)),
      if_neg (fun h => by subst h; exact absurd hc (by decide)),
      if_neg (fun h => by subst h; exact absurd hc (by decide)),
      if_neg (by omega), if_neg (by simp)]

theorem repr_roundtrip_and_nonascii_witness :
    (SparkData.mk "Webhook"
        [("name", JsonValue.str (String.mk [Char.ofNat 233]))]).repr =
        "Webhook" ++ "(" ++ pyStrRepr (SparkData.mk "Webhook"
          [("name", JsonValue.str
            (String.mk [Char.ofNat 233]))]).reprJsonText ++ ")" ∧
      pyLitEval (pyStrRepr (SparkData.mk "Webhook"
          [("name", JsonValue.str
            (String.mk [Char.ofNat 233]))]).reprJsonText) =
        some (SparkData.mk "Webhook"
          [("name", JsonValue.str
            (String.mk [Char.ofNat 233]))]).reprJsonText ∧
      SparkData.construct "Webhook"
        (ConstructInput.text (SparkData.mk "Webhook"
          [("name", JsonValue.str
            (String.mk [Char.ofNat 233]))]).reprJsonText) =
        Except.ok (SparkData.mk "Webhook"
          [("name", JsonValue.str (String.mk [Char.ofNat 233]))]) ∧
      jsonEscapeChar false (Char.ofNat 233) = [Char.ofNat 233] :=
  repr_roundtrip_and_nonascii
    (SparkData.mk "Webhook"
      [("name", JsonValue.str (String.mk [Char.ofNat 233]))])
    (Char.ofNat 233) (by decide) (by decide)
